import Mathlib

/-!
# MatrixOpPerfMCU: fixed-size matrix kernels

A shallow embedding of `xitren/math/gemm_core.hpp`, `xitren/math/branchless.hpp`
and `xitren/simd/gemm_int8_simd.hpp`, followed by the properties established for them.

* A buffer (`Type*` in the source) is a list of element values; a read or a write whose
  index is outside the buffer has no defined behaviour in the source and yields `none`.
  The buffers passed to one call are separate objects: the operands of a kernel do not alias,
  and the operands passed as pointers to const are arguments that the kernel only reads.
* An element type is a `w`-bit integer type, signed or unsigned; arithmetic results are
  reduced with `IntType.wrap`.
* Counted loops are `forRange`, stepping loops are `forStep`.
* `branchless_select` works on addresses: `min` and `max` are given a `Layout` that places
  the buffer and the local `ret` in a `W`-bit address space.
* The packed-integer kernel reads and writes 32-bit words, `load32` and `store32`, over four
  consecutive `int8_t` elements.
* In `transpose`, `trace`, `min` and `max` the source names the element it reads through a
  reference, `Type& cij = a[...]`; the embedding reads the value of that element.
* The blocked kernel has a recording twin, `mult_traced`, that carries the list of index
  triples next to the buffer; it is proved to be the kernel once the list is forgotten.
-/

namespace xitren.math

/-- An integer element type: its width in bits and its signedness. -/
structure IntType where
  bits : Nat
  signed : Bool
deriving DecidableEq, Repr

/-- The element type `std::int8_t`. -/
def int8 : IntType := ⟨8, true⟩

/-- The element type `std::int32_t`. -/
def int32 : IntType := ⟨32, true⟩

/-- The element type `std::uint8_t`. -/
def uint8 : IntType := ⟨8, false⟩

/-- Conversion of a mathematical integer into the element type: reduction modulo `2^bits`,
into `[0, 2^bits)` for an unsigned type and into `[-2^(bits-1), 2^(bits-1))` for a signed one. -/
def IntType.wrap (T : IntType) (x : Int) : Int :=
  if T.signed then (x + 2 ^ (T.bits - 1)) % 2 ^ T.bits - 2 ^ (T.bits - 1)
  else x % 2 ^ T.bits

/-- The values representable in the element type. -/
def IntType.InRange (T : IntType) (x : Int) : Prop := T.wrap x = x

instance (T : IntType) (x : Int) : Decidable (T.InRange x) := by
  unfold IntType.InRange; infer_instance

/-- A matrix buffer: `Rows * Columns` elements, row-major. -/
abbrev Buf := List Int

/-- The read `m[i]`; outside the buffer it has no defined result. -/
def load (m : Buf) (i : Nat) : Option Int := m[i]?

/-- The write `m[i] = v`; outside the buffer it has no defined result. -/
def store (m : Buf) (i : Nat) (v : Int) : Option Buf :=
  if i < m.length then some (m.set i v) else none

/-- The loop `for (t = lo; t < lo + n; ++t) body(t)` over a state, stopping at the first
iteration that fails. -/
def forRange {σ : Type} (lo : Nat) : Nat → (Nat → σ → Option σ) → σ → Option σ
  | 0, _, s => some s
  | n + 1, body, s => (forRange lo n body s).bind (body (lo + n))

/-- The loop `for (t = i; t < stop; t += step) body(t)`; `fuel` bounds the number of
iterations and running out of it is a failure. -/
def forStep {σ : Type} (step stop : Nat) (body : Nat → σ → Option σ) :
    Nat → Nat → σ → Option σ
  | 0, _, _ => none
  | fuel + 1, i, s =>
    if i < stop then (body i s).bind (forStep step stop body fuel (i + step)) else some s

/-- Row-major element access, `matrix_aligned::get`: `data_[(row * Columns) + column]`. -/
def get (Columns : Nat) (data : Buf) (row column : Nat) : Int :=
  data.getD (row * Columns + column) 0

/-- Reference kernel, `gemm_core<Rows, Columns, Type, naive>::mult<Other>`. -/
def gemm_core.mult (T : IntType) (Rows Columns Other : Nat) (a b c : Buf) : Option Buf :=
  forRange 0 Rows (fun i c =>
    forRange 0 Columns (fun j c => do
      let current := i * Columns + j
      let cij ← load c current
      let cij ← forRange 0 Other (fun k cij => do
        let x ← load a (i * Other + k)
        let y ← load b (k * Columns + j)
        pure (T.wrap (cij + x * y))) cij
      store c current cij) c) c

/-- Reference kernel, `gemm_core<Rows, Columns, Type, Alg>::add`. -/
def gemm_core.add (T : IntType) (Rows Columns : Nat) (a b c : Buf) : Option Buf :=
  forRange 0 Rows (fun i c =>
    forRange 0 Columns (fun j c => do
      let current := i * Columns + j
      let x ← load a current
      let y ← load b current
      let cij := T.wrap (x + y)
      store c current cij) c) c

/-- Reference kernel, `gemm_core<Rows, Columns, Type, Alg>::sub`. -/
def gemm_core.sub (T : IntType) (Rows Columns : Nat) (a b c : Buf) : Option Buf :=
  forRange 0 Rows (fun i c =>
    forRange 0 Columns (fun j c => do
      let current := i * Columns + j
      let x ← load a current
      let y ← load b current
      let cij := T.wrap (x - y)
      store c current cij) c) c

/-- Reference kernel, `gemm_core<Rows, Columns, Type, Alg>::transpose`: the element read is
`a[j * Columns + i]`, the element written is `c[i * Columns + j]`. -/
def gemm_core.transpose (Rows Columns : Nat) (a c : Buf) : Option Buf :=
  forRange 0 Rows (fun i c =>
    forRange 0 Columns (fun j c => do
      let cij ← load a (j * Columns + i)
      store c (i * Columns + j) cij) c) c

/-- The tile edge of the blocked kernel, `gemm_core<..., blocked>::blocksize`. -/
def blocksize : Nat := 32

/-- One tile of the blocked kernel, `gemm_core<Rows, Columns, Type, blocked>::do_block<Other>`. -/
def gemm_core_blocked.do_block (T : IntType) (Columns Other : Nat) (si sj sk : Nat)
    (a b c : Buf) : Option Buf :=
  let last_si := si + blocksize
  let last_sj := sj + blocksize
  let last_sk := sk + blocksize
  forRange si (last_si - si) (fun i c =>
    forRange sj (last_sj - sj) (fun j c => do
      let current := i * Columns + j
      let cij ← load c current
      let cij ← forRange sk (last_sk - sk) (fun k cij => do
        let x ← load a (i * Other + k)
        let y ← load b (k * Columns + j)
        pure (T.wrap (cij + x * y))) cij
      store c current cij) c) c

/-- Blocked kernel, `gemm_core<Rows, Columns, Type, blocked>::mult<Other>`. Each stepping
loop advances by `blocksize`, so `stop + 1` iterations of fuel are never used up. -/
def gemm_core_blocked.mult (T : IntType) (Rows Columns Other : Nat) (a b c : Buf) :
    Option Buf :=
  forStep blocksize Rows (fun si c =>
    forStep blocksize Columns (fun sj c =>
      forStep blocksize Other (fun sk c =>
        gemm_core_blocked.do_block T Columns Other si sj sk a b c) (Other + 1) 0 c)
      (Columns + 1) 0 c) (Rows + 1) 0 c

/-! ## Packed-integer kernel (`gemm_int8_simd.hpp`) -/

/-- The number of columns handled per step, `gemm_core<..., int8_t, mve>::vectorization`. -/
def vectorization : Nat := 4

/-- The byte that holds an `int8_t` value. -/
def byte_of (x : Int) : Nat := (x % 256).toNat

/-- The load `*((std::uint32_t*)(m + off))`: four consecutive bytes, little-endian. A load
that is not wholly inside the buffer has no defined result. -/
def load32 (m : Buf) (off : Nat) : Option Nat := do
  let b0 ← load m off
  let b1 ← load m (off + 1)
  let b2 ← load m (off + 2)
  let b3 ← load m (off + 3)
  pure (byte_of b0 + 2 ^ 8 * byte_of b1 + 2 ^ 16 * byte_of b2 + 2 ^ 24 * byte_of b3)

/-- The store `*((std::uint32_t*)(m + off)) = w`: four consecutive bytes, little-endian,
each read back as an `int8_t`. -/
def store32 (m : Buf) (off : Nat) (w : Nat) : Option Buf := do
  let m ← store m off (int8.wrap (w % 2 ^ 8))
  let m ← store m (off + 1) (int8.wrap (w / 2 ^ 8 % 2 ^ 8))
  let m ← store m (off + 2) (int8.wrap (w / 2 ^ 16 % 2 ^ 8))
  store m (off + 3) (int8.wrap (w / 2 ^ 24 % 2 ^ 8))

/-- Modelled from the spec: the CMSIS intrinsic `__PKHTB(x, y, 0)` is declared outside the
source files at hand; with shift amount 0 it is `(x & 0xFFFF0000) | (y & 0x0000FFFF)`. -/
def __PKHTB (x y : Nat) : Nat := (x &&& 0xFFFF0000) ||| (y &&& 0x0000FFFF)

/-- A 16-bit lane read as a signed integer. -/
def s16 (n : Nat) : Int :=
  if n % 2 ^ 16 < 2 ^ 15 then (n % 2 ^ 16 : Nat) else (n % 2 ^ 16 : Nat) - 2 ^ 16

/-- Modelled from the spec: the CMSIS intrinsic `__SMLAD(x, y, acc)` is declared outside the
source files at hand; it is `acc + s16(x[15:0]) * s16(y[15:0]) + s16(x[31:16]) * s16(y[31:16])`
modulo `2^32`. -/
def __SMLAD (x y acc : Nat) : Nat :=
  (((acc : Int) + s16 x * s16 y + s16 (x / 2 ^ 16) * s16 (y / 2 ^ 16)) % 2 ^ 32).toNat

/-- Packed-integer kernel, `gemm_core<Rows, Columns, std::int8_t, mve>::mult<Other>`; the
words are `std::uint32_t`, so the shifts to the left are reduced modulo `2^32`. -/
def gemm_core_mve.mult (Rows Columns Other : Nat) (a b c : Buf) : Option Buf :=
  forRange 0 Rows (fun i c =>
    forStep vectorization Columns (fun j c => do
      let current := i * Columns + j
      let c0 ← load32 c current
      let c0 ← forRange 0 Other (fun k c0 => do
        let var_a ← load32 a (i * Other + k)
        let var_b ← load32 b (k * Columns + j)
        let var_a0 := __PKHTB var_a ((var_a <<< 16) % 2 ^ 32) &&& 0x0F0F
        let var_b0 := __PKHTB var_b ((var_b <<< 8) % 2 ^ 32) &&& 0x0F0F
        let var_b1 := __PKHTB (var_b >>> 16) (var_b >>> 8) &&& 0x0F0F
        let result := __SMLAD var_a0 var_b0 c0
        pure (__SMLAD var_a0 var_b1 result)) c0
      store32 c current c0) (Columns + 1) 0 c) c

/-! ## Branchless selector (`branchless.hpp`) -/

/-- The address `ptr_c` computed by `branchless_select` on a machine with `W`-bit addresses:
`((compare - 1) & (ptr_b ^ ptr_a)) ^ ptr_a`, the `int` value `compare - 1` being converted
to `std::uintptr_t`. -/
def branchless_select_ptr (W : Nat) (compare : Int) (ptr_a ptr_b : Nat) : Nat :=
  (((compare - 1) % 2 ^ W).toNat &&& (ptr_b ^^^ ptr_a)) ^^^ ptr_a

/-- The function `branchless_select(compare, a, b)`: the object found at the computed address,
in a memory that maps the addresses of live objects to their values. -/
def branchless_select (W : Nat) (mem : Nat → Option Int) (compare : Int) (ptr_a ptr_b : Nat) :
    Option Int :=
  mem (branchless_select_ptr W compare ptr_a ptr_b)

/-! ## Reference kernel: trace, min, max -/

/-- Reference kernel, `gemm_core<Rows, Columns, Type, Alg>::trace`: the loop runs over `Rows`
and reads `a[i * Columns + i]`. -/
def gemm_core.trace (T : IntType) (Rows Columns : Nat) (a : Buf) : Option Int :=
  forRange 0 Rows (fun i ret => do
    let current := i * Columns + i
    let cij ← load a current
    pure (T.wrap (ret + cij))) 0

/-- Where the objects that `min` and `max` hand to `branchless_select` live: addresses are
`W` bits wide, an element takes `size` bytes, `a[0]` is at address `base` and the local
variable `ret` is at address `ptr_ret`. -/
structure Layout where
  W : Nat
  size : Nat
  base : Nat
  ptr_ret : Nat
deriving DecidableEq, Repr

/-- A layout is valid for a buffer of `n` elements when the buffer and `ret` fit into the
address space and `ret` is not inside the buffer. -/
def Layout.Valid (L : Layout) (n : Nat) : Prop :=
  0 < L.size ∧ L.base + L.size * n ≤ 2 ^ L.W ∧ L.ptr_ret + L.size ≤ 2 ^ L.W ∧
    (L.ptr_ret + L.size ≤ L.base ∨ L.base + L.size * n ≤ L.ptr_ret)

instance (L : Layout) (n : Nat) : Decidable (L.Valid n) := by
  unfold Layout.Valid; infer_instance

/-- The memory seen by `branchless_select` inside `min` and `max`: the local `ret` and the
elements of `a`. -/
def Layout.mem (L : Layout) (a : Buf) (ret : Int) (p : Nat) : Option Int :=
  if p = L.ptr_ret then some ret
  else if L.base ≤ p ∧ (p - L.base) % L.size = 0 then load a ((p - L.base) / L.size)
  else none

/-- Reference kernel, `gemm_core<Rows, Columns, Type, Alg>::min`: `ret` starts as `Type{}`,
the flag is the `bool` `cij < ret` converted to `int`. -/
def gemm_core.min (L : Layout) (Rows Columns : Nat) (a : Buf) : Option Int :=
  forRange 0 Rows (fun i ret =>
    forRange 0 Columns (fun j ret => do
      let current := i * Columns + j
      let cij ← load a current
      branchless_select L.W (L.mem a ret) (if cij < ret then 1 else 0)
        (L.base + L.size * current) L.ptr_ret) ret) 0

/-- Reference kernel, `gemm_core<Rows, Columns, Type, Alg>::max`: `ret` starts as `Type{}`,
the flag is the `bool` `cij > ret` converted to `int`. -/
def gemm_core.max (L : Layout) (Rows Columns : Nat) (a : Buf) : Option Int :=
  forRange 0 Rows (fun i ret =>
    forRange 0 Columns (fun j ret => do
      let current := i * Columns + j
      let cij ← load a current
      branchless_select L.W (L.mem a ret) (if cij > ret then 1 else 0)
        (L.base + L.size * current) L.ptr_ret) ret) 0

/-! ## Index triples of the blocked multiply -/

/-- The index triples `(i, j, k)` at which `do_block` executes
`cij += a[i * Other + k] * b[k * Columns + j]`, in execution order, appended to `tr`. -/
def gemm_core_blocked.do_block_visits (si sj sk : Nat) (tr : List (Nat × Nat × Nat)) :
    Option (List (Nat × Nat × Nat)) :=
  let last_si := si + blocksize
  let last_sj := sj + blocksize
  let last_sk := sk + blocksize
  forRange si (last_si - si) (fun i tr =>
    forRange sj (last_sj - sj) (fun j tr =>
      forRange sk (last_sk - sk) (fun k tr => some (tr ++ [(i, j, k)])) tr) tr) tr

/-- The index triples `(i, j, k)` at which the blocked `mult` executes its multiply-accumulate
statement, in execution order: the loop nest of `mult` around `do_block`. -/
def gemm_core_blocked.mult_visits (Rows Columns Other : Nat) :
    Option (List (Nat × Nat × Nat)) :=
  forStep blocksize Rows (fun si tr =>
    forStep blocksize Columns (fun sj tr =>
      forStep blocksize Other (fun sk tr =>
        gemm_core_blocked.do_block_visits si sj sk tr) (Other + 1) 0 tr)
      (Columns + 1) 0 tr) (Rows + 1) 0 []

/-- The tile `do_block` with its index triples recorded: the loop nest, the loads and the
stores of `do_block`, each execution of `cij += a[i * Other + k] * b[k * Columns + j]` also
appending its `(i, j, k)` to the list carried next to the buffer `c`. -/
def gemm_core_blocked.do_block_traced (T : IntType) (Columns Other : Nat) (si sj sk : Nat)
    (a b : Buf) (s : Buf × List (Nat × Nat × Nat)) : Option (Buf × List (Nat × Nat × Nat)) :=
  let last_si := si + blocksize
  let last_sj := sj + blocksize
  let last_sk := sk + blocksize
  forRange si (last_si - si) (fun i s =>
    forRange sj (last_sj - sj) (fun j s => do
      let current := i * Columns + j
      let cij ← load s.1 current
      let r ← forRange sk (last_sk - sk) (fun k r => do
        let x ← load a (i * Other + k)
        let y ← load b (k * Columns + j)
        pure (T.wrap (r.1 + x * y), r.2 ++ [(i, j, k)])) (cij, s.2)
      let c' ← store s.1 current r.1
      pure (c', r.2)) s) s

/-- The blocked `mult` with its index triples recorded: the loop nest of `mult` around
`do_block_traced`, started with the buffer `c` and no triple. -/
def gemm_core_blocked.mult_traced (T : IntType) (Rows Columns Other : Nat) (a b c : Buf) :
    Option (Buf × List (Nat × Nat × Nat)) :=
  forStep blocksize Rows (fun si s =>
    forStep blocksize Columns (fun sj s =>
      forStep blocksize Other (fun sk s =>
        gemm_core_blocked.do_block_traced T Columns Other si sj sk a b s) (Other + 1) 0 s)
      (Columns + 1) 0 s) (Rows + 1) 0 (c, [])

/-! ## Specification vocabulary -/

/-- The accumulator `cij` after the steps `lo ≤ k < lo + n` of the innermost multiply loop,
started from `v`. -/
def macc (T : IntType) (Columns Other : Nat) (a b : Buf) (i j lo : Nat) : Nat → Int → Int
  | 0, v => v
  | n + 1, v =>
    T.wrap (macc T Columns Other a b i j lo n v + get Other a i (lo + n) * get Columns b (lo + n) j)

/-- The buffer `m'` is `m` with every cell `(i, j)` of the region `R` replaced by
`G i j` of its old value, and every other cell kept (`C` columns, row-major). -/
def Upd (C : Nat) (R : Nat → Nat → Prop) (G : Nat → Nat → Int → Int) (m m' : Buf) :
    Prop :=
  m'.length = m.length ∧
    ∀ i j v, j < C → m[i * C + j]? = some v →
      (R i j → m'[i * C + j]? = some (G i j v)) ∧ (¬ R i j → m'[i * C + j]? = some v)

/-- The statement `cij += a[i * Other + k] * b[k * Columns + j]` together with the load and
the store of `c[i * Columns + j]` around it, executed on the buffer `m` at one index triple
`x = (i, j, k)`. -/
def mac (T : IntType) (Columns Other : Nat) (a b m : Buf) (x : Nat × Nat × Nat) : Option Buf := do
  let cij ← load m (x.1 * Columns + x.2.1)
  let p ← load a (x.1 * Other + x.2.2)
  let q ← load b (x.2.2 * Columns + x.2.1)
  store m (x.1 * Columns + x.2.1) (T.wrap (cij + p * q))

/-- The multiply-accumulate executed at every triple of a list, in the order of the list. -/
def replay (T : IntType) (Columns Other : Nat) (a b : Buf) :
    List (Nat × Nat × Nat) → Buf → Option Buf
  | [], m => some m
  | x :: tr, m => (mac T Columns Other a b m x).bind (replay T Columns Other a b tr)

/-- The buffer that holds `0, 1, ..., n - 1`. -/
def iota (n : Nat) : Buf := (List.range n).map Int.ofNat

/-! # Lemmas -/

/-! ## Loops -/

theorem forRange_front {σ : Type} (lo n : Nat) (body : Nat → σ → Option σ) (s : σ) :
    forRange lo (n + 1) body s = (body lo s).bind (forRange (lo + 1) n body) := by
  induction n generalizing s with
  | zero => simp [forRange]
  | succ n ih =>
    rw [forRange, ih]
    cases h : body lo s with
    | none => simp
    | some s1 =>
      simp only [Option.some_bind, Option.bind_eq_bind]
      rw [forRange]
      have : lo + 1 + n = lo + (n + 1) := by omega
      rw [this]

/-- Total-correctness rule for a counted loop: an invariant that holds initially and is
re-established by every iteration (which must succeed) holds for the result. -/
theorem forRange_inv {σ : Type} (P : Nat → σ → Prop) (lo n : Nat)
    (body : Nat → σ → Option σ) (s : σ) (h0 : P 0 s)
    (hstep : ∀ t s1, t < n → P t s1 → ∃ s2, body (lo + t) s1 = some s2 ∧ P (t + 1) s2) :
    ∃ s', forRange lo n body s = some s' ∧ P n s' := by
  induction n with
  | zero => exact ⟨s, rfl, h0⟩
  | succ n ih =>
    obtain ⟨s1, h1, hP⟩ := ih (fun t s1 ht => hstep t s1 (by omega))
    obtain ⟨s2, h2, hP2⟩ := hstep n s1 (by omega) hP
    exact ⟨s2, by simp [forRange, h1, h2], hP2⟩

/-- A counted loop fails as soon as one of its iterations fails on every state. -/
theorem forRange_none {σ : Type} (lo n : Nat) (body : Nat → σ → Option σ) (s : σ)
    (t : Nat) (ht : t < n) (hfail : ∀ s1, body (lo + t) s1 = none) :
    forRange lo n body s = none := by
  induction n with
  | zero => omega
  | succ n ih =>
    rw [forRange]
    by_cases h : t < n
    · rw [ih h]; rfl
    · have : t = n := by omega
      subst this
      cases forRange lo t body s with
      | none => rfl
      | some s1 => simpa using hfail s1

/-- A stepping loop over a range that is a whole number of steps is the counted loop over
the step numbers; `fuel` larger than the number of steps is enough. -/
theorem forStep_eq_forRange {σ : Type} (step stop : Nat) (body : Nat → σ → Option σ)
    (hstep : 0 < step) (m : Nat) :
    ∀ (fuel t0 : Nat) (s : σ), step * (t0 + m) = stop → m < fuel →
      forStep step stop body fuel (step * t0) s
        = forRange t0 m (fun t => body (step * t)) s := by
  induction m with
  | zero =>
    intro fuel t0 s hstop hfuel
    obtain ⟨f, rfl⟩ : ∃ f, fuel = f + 1 := ⟨fuel - 1, by omega⟩
    have : ¬ step * t0 < stop := by simp at hstop; omega
    simp [forStep, forRange, this]
  | succ m ih =>
    intro fuel t0 s hstop hfuel
    obtain ⟨f, rfl⟩ : ∃ f, fuel = f + 1 := ⟨fuel - 1, by omega⟩
    have hlt : step * t0 < stop := by
      rw [← hstop]
      exact Nat.mul_lt_mul_of_pos_left (by omega) hstep
    rw [forStep, if_pos hlt, forRange_front]
    congr 1
    funext s1
    have h := ih f (t0 + 1) s1 (by rw [← hstop]; congr 1; omega) (by omega)
    rw [Nat.mul_add, Nat.mul_one] at h
    exact h

/-! ## Element arithmetic -/

theorem wrap_modEq (T : IntType) (x : Int) : T.wrap x ≡ x [ZMOD 2 ^ T.bits] := by
  unfold IntType.wrap
  split
  · have h := Int.emod_emod_of_dvd (x + 2 ^ (T.bits - 1)) (dvd_refl ((2 : Int) ^ T.bits))
    have h2 : (x + 2 ^ (T.bits - 1)) % 2 ^ T.bits ≡ x + 2 ^ (T.bits - 1) [ZMOD 2 ^ T.bits] := h
    have h3 := h2.sub_right (2 ^ (T.bits - 1))
    simpa using h3
  · exact Int.emod_emod_of_dvd x (dvd_refl _)

theorem wrap_congr (T : IntType) {x y : Int} (h : x ≡ y [ZMOD 2 ^ T.bits]) :
    T.wrap x = T.wrap y := by
  unfold IntType.wrap
  have h1 : x % 2 ^ T.bits = y % 2 ^ T.bits := h
  have h2 : (x + 2 ^ (T.bits - 1)) % 2 ^ T.bits = (y + 2 ^ (T.bits - 1)) % 2 ^ T.bits :=
    h.add_right _
  rw [h1, h2]

/-- Reducing an intermediate sum does not change the reduced total. -/
theorem wrap_add_wrap (T : IntType) (x y : Int) : T.wrap (T.wrap x + y) = T.wrap (x + y) :=
  wrap_congr T ((wrap_modEq T x).add_right y)

theorem wrap_inRange (T : IntType) (x : Int) : T.InRange (T.wrap x) :=
  wrap_congr T (wrap_modEq T x)

/-! ## Row-major indexing -/

theorem idx_lt {R C i j : Nat} (hi : i < R) (hj : j < C) : i * C + j < R * C := by
  have h : (i + 1) * C ≤ R * C := Nat.mul_le_mul_right C hi
  rw [Nat.add_mul, Nat.one_mul] at h
  omega

theorem idx_inj {C i j i' j' : Nat} (hj : j < C) (hj' : j' < C)
    (h : i * C + j = i' * C + j') : i = i' ∧ j = j' := by
  have h1 : (i * C + j) / C = i := by
    rw [Nat.add_comm, Nat.add_mul_div_right _ _ (by omega), Nat.div_eq_of_lt hj, Nat.zero_add]
  have h2 : (i' * C + j') / C = i' := by
    rw [Nat.add_comm, Nat.add_mul_div_right _ _ (by omega), Nat.div_eq_of_lt hj', Nat.zero_add]
  have hi : i = i' := by rw [← h1, h, h2]
  subst hi
  exact ⟨rfl, by omega⟩

theorem get_eq_of_load {C : Nat} {m : Buf} {i j : Nat} {v : Int}
    (h : m[i * C + j]? = some v) : get C m i j = v := by
  simp [get, List.getD, h]

theorem load_eq_get {C : Nat} {m : Buf} {i j : Nat} (h : i * C + j < m.length) :
    load m (i * C + j) = some (get C m i j) := by
  have h1 : m[i * C + j]? = some m[i * C + j] := List.getElem?_eq_getElem h
  rw [load, h1, get_eq_of_load h1]

/-! ## Cell-wise description of a buffer update -/

theorem Upd.refl (C : Nat) (G : Nat → Nat → Int → Int) (m : Buf) :
    Upd C (fun _ _ => False) G m m :=
  ⟨rfl, fun _ _ _ _ h => ⟨fun hf => hf.elim, fun _ => h⟩⟩

theorem Upd.congr {C : Nat} {R R' : Nat → Nat → Prop} {G G' : Nat → Nat → Int → Int}
    {m m' : Buf} (h : Upd C R G m m') (hR : ∀ i j, j < C → (R i j ↔ R' i j))
    (hG : ∀ i j v, j < C → R i j → G i j v = G' i j v) : Upd C R' G' m m' := by
  refine ⟨h.1, fun i j v hj hv => ⟨fun hr => ?_, fun hr => ?_⟩⟩
  · have hr' := (hR i j hj).2 hr
    rw [← hG i j v hj hr']
    exact ((h.2 i j v hj hv).1 hr')
  · exact (h.2 i j v hj hv).2 (fun hr' => hr ((hR i j hj).1 hr'))

/-- Two updates of disjoint regions by the same cell function make one update of the union. -/
theorem Upd.union {C : Nat} {R1 R2 : Nat → Nat → Prop} {G : Nat → Nat → Int → Int}
    {m m1 m2 : Buf} (h1 : Upd C R1 G m m1) (h2 : Upd C R2 G m1 m2)
    (hd : ∀ i j, R1 i j → R2 i j → False) :
    Upd C (fun i j => R1 i j ∨ R2 i j) G m m2 := by
  refine ⟨h2.1.trans h1.1, fun i j v hj hv => ⟨fun hr => ?_, fun hr => ?_⟩⟩
  · rcases hr with hr | hr
    · have a1 := (h1.2 i j v hj hv).1 hr
      exact (h2.2 i j _ hj a1).2 (fun hr2 => hd i j hr hr2)
    · have a1 := (h1.2 i j v hj hv).2 (fun hr1 => hd i j hr1 hr)
      exact (h2.2 i j _ hj a1).1 hr
  · have a1 := (h1.2 i j v hj hv).2 (fun hr1 => hr (Or.inl hr1))
    exact (h2.2 i j _ hj a1).2 (fun hr2 => hr (Or.inr hr2))

theorem Upd.id (C : Nat) (R : Nat → Nat → Prop) (m : Buf) : Upd C R (fun _ _ v => v) m m :=
  ⟨rfl, fun _ _ _ _ h => ⟨fun _ => h, fun _ => h⟩⟩

/-- Two updates of the same region compose their cell functions. -/
theorem Upd.comp {C : Nat} {R : Nat → Nat → Prop} {G1 G2 : Nat → Nat → Int → Int}
    {m m1 m2 : Buf} (h1 : Upd C R G1 m m1) (h2 : Upd C R G2 m1 m2) :
    Upd C R (fun i j v => G2 i j (G1 i j v)) m m2 := by
  refine ⟨h2.1.trans h1.1, fun i j v hj hv => ⟨fun hr => ?_, fun hr => ?_⟩⟩
  · exact (h2.2 i j _ hj ((h1.2 i j v hj hv).1 hr)).1 hr
  · exact (h2.2 i j _ hj ((h1.2 i j v hj hv).2 hr)).2 hr

/-- A single store is an update of one cell. -/
theorem Upd.store {C : Nat} (G : Nat → Nat → Int → Int) {m : Buf} {i j : Nat} {v : Int}
    (hj : j < C) (hv : m[i * C + j]? = some v) :
    ∃ m', store m (i * C + j) (G i j v) = some m' ∧
      Upd C (fun i' j' => i' = i ∧ j' = j) G m m' := by
  have hlt : i * C + j < m.length := by
    by_contra hge
    rw [List.getElem?_eq_none (by omega)] at hv
    exact Option.noConfusion hv
  refine ⟨m.set (i * C + j) (G i j v), by simp [xitren.math.store, hlt], by simp, ?_⟩
  intro i' j' v' hj' hv'
  constructor
  · rintro ⟨rfl, rfl⟩
    rw [hv] at hv'
    cases hv'
    simp [List.getElem?_set, hlt]
  · intro hne
    have : i * C + j ≠ i' * C + j' := fun h => hne ((idx_inj hj hj' h).1.symm ▸
      (idx_inj hj hj' h).2.symm ▸ ⟨rfl, rfl⟩)
    rw [List.getElem?_set_ne this]
    exact hv'

/-- Two buffers described by the same update of a `Rows * C` buffer are equal. -/
theorem Upd.ext {C Rows : Nat} {R : Nat → Nat → Prop} {G : Nat → Nat → Int → Int}
    {m m1 m2 : Buf} (hc : m.length = Rows * C) (h1 : Upd C R G m m1) (h2 : Upd C R G m m2) :
    m1 = m2 := by
  apply List.ext_getElem?
  intro p
  by_cases hp : p < m.length
  · have hC : 0 < C := by
      rcases Nat.eq_zero_or_pos C with h | h
      · subst h; rw [Nat.mul_zero] at hc; omega
      · exact h
    have hdecomp : p = p / C * C + p % C := by
      have := Nat.div_add_mod p C
      rw [Nat.mul_comm] at this
      omega
    have hj : p % C < C := Nat.mod_lt _ hC
    have hv : m[p / C * C + p % C]? = some m[p] := by
      rw [← hdecomp]; exact List.getElem?_eq_getElem hp
    rw [hdecomp]
    by_cases hr : R (p / C) (p % C)
    · rw [(h1.2 _ _ _ hj hv).1 hr, (h2.2 _ _ _ hj hv).1 hr]
    · rw [(h1.2 _ _ _ hj hv).2 hr, (h2.2 _ _ _ hj hv).2 hr]
  · rw [List.getElem?_eq_none (by rw [h1.1]; omega),
      List.getElem?_eq_none (by rw [h2.1]; omega)]

/-- A loop whose iteration `t` updates the region `R t` by `G`, the regions being pairwise
disjoint, updates the union of the regions by `G`. -/
theorem forRange_upd (C : Nat) (R : Nat → Nat → Nat → Prop) (G : Nat → Nat → Int → Int)
    (lo n : Nat) (body : Nat → Buf → Option Buf) (m : Buf)
    (hbody : ∀ t m1, t < n → m1.length = m.length →
      ∃ m2, body (lo + t) m1 = some m2 ∧ Upd C (R (lo + t)) G m1 m2)
    (hdisj : ∀ t t' i j, t ≠ t' → R t i j → R t' i j → False) :
    ∃ m', forRange lo n body m = some m' ∧
      Upd C (fun i j => ∃ t, lo ≤ t ∧ t < lo + n ∧ R t i j) G m m' := by
  apply forRange_inv
    (fun k m' => Upd C (fun i j => ∃ t, lo ≤ t ∧ t < lo + k ∧ R t i j) G m m')
  · exact (Upd.refl C G m).congr
      (fun i j _ => ⟨fun h => h.elim, fun ⟨t, h1, h2, _⟩ => by omega⟩)
      (fun _ _ _ _ h => h.elim)
  · intro k m1 hk hinv
    obtain ⟨m2, hm2, hupd⟩ := hbody k m1 hk hinv.1
    refine ⟨m2, hm2, (hinv.union hupd ?_).congr ?_ (fun _ _ _ _ _ => rfl)⟩
    · rintro i j ⟨t, h1, h2, h3⟩ h4
      exact hdisj t (lo + k) i j (by omega) h3 h4
    · intro i j _
      constructor
      · rintro (⟨t, h1, h2, h3⟩ | h)
        · exact ⟨t, h1, by omega, h3⟩
        · exact ⟨lo + k, by omega, by omega, h⟩
      · rintro ⟨t, h1, h2, h3⟩
        by_cases ht : t = lo + k
        · subst ht; exact Or.inr h3
        · exact Or.inl ⟨t, h1, by omega, h3⟩

/-- The common shape of the kernels: a double loop over a rectangle of cells, each iteration
computing one value and storing it into its own cell. -/
theorem loop2_spec (C li ni lj nj : Nat) (cell : Nat → Nat → Buf → Option Int)
    (G : Nat → Nat → Int → Int) (m : Buf) (hj : lj + nj ≤ C)
    (hlen : (li + ni) * C ≤ m.length)
    (hcell : ∀ i j m1 v, li ≤ i → i < li + ni → lj ≤ j → j < lj + nj →
      m1.length = m.length → m1[i * C + j]? = some v → cell i j m1 = some (G i j v)) :
    ∃ m', forRange li ni (fun i m1 => forRange lj nj (fun j m2 =>
        (cell i j m2).bind (fun v => store m2 (i * C + j) v)) m1) m = some m' ∧
      Upd C (fun i j => li ≤ i ∧ i < li + ni ∧ lj ≤ j ∧ j < lj + nj) G m m' := by
  have hrow : ∀ ti m1, ti < ni → m1.length = m.length →
      ∃ m2, forRange lj nj (fun j m2 =>
          (cell (li + ti) j m2).bind (fun v => store m2 ((li + ti) * C + j) v)) m1 = some m2 ∧
        Upd C (fun i j => i = li + ti ∧ lj ≤ j ∧ j < lj + nj) G m1 m2 := by
    intro ti m1 hti hlen1
    have hcol : ∀ tj m2, tj < nj → m2.length = m1.length →
        ∃ m3, (cell (li + ti) (lj + tj) m2).bind
            (fun v => store m2 ((li + ti) * C + (lj + tj)) v) = some m3 ∧
          Upd C (fun i j => i = li + ti ∧ j = lj + tj) G m2 m3 := by
      intro tj m2 htj hlen2
      have hjC : lj + tj < C := by omega
      have hidx : (li + ti) * C + (lj + tj) < m2.length := by
        have := idx_lt (R := li + ni) (i := li + ti) (by omega) hjC
        omega
      have hv : m2[(li + ti) * C + (lj + tj)]? = some m2[(li + ti) * C + (lj + tj)] :=
        List.getElem?_eq_getElem hidx
      rw [hcell (li + ti) (lj + tj) m2 _ (by omega) (by omega) (by omega) (by omega)
        (by omega) hv]
      exact Upd.store G hjC hv
    obtain ⟨m2, hm2, hupd2⟩ := forRange_upd C (fun t i j => i = li + ti ∧ j = t) G lj nj
      (fun j m2 => (cell (li + ti) j m2).bind (fun v => store m2 ((li + ti) * C + j) v)) m1
      hcol (by rintro t t' i j hne ⟨_, rfl⟩ ⟨_, rfl⟩; exact hne rfl)
    refine ⟨m2, hm2, hupd2.congr ?_ (fun _ _ _ _ _ => rfl)⟩
    intro i j _
    constructor
    · rintro ⟨t, h1, h2, rfl, rfl⟩; exact ⟨rfl, h1, h2⟩
    · rintro ⟨rfl, h1, h2⟩; exact ⟨j, h1, h2, rfl, rfl⟩
  obtain ⟨m', hm', hupd⟩ := forRange_upd C
    (fun t i j => i = t ∧ lj ≤ j ∧ j < lj + nj) G li ni
    (fun i m1 => forRange lj nj (fun j m2 =>
      (cell i j m2).bind (fun v => store m2 (i * C + j) v)) m1) m hrow
    (by rintro t t' i j hne ⟨rfl, _⟩ ⟨rfl, _⟩; exact hne rfl)
  refine ⟨m', hm', hupd.congr ?_ (fun _ _ _ _ _ => rfl)⟩
  intro i j _
  constructor
  · rintro ⟨t, h1, h2, rfl, h3, h4⟩; exact ⟨h1, h2, h3, h4⟩
  · rintro ⟨h1, h2, h3, h4⟩; exact ⟨i, h1, h2, rfl, h3, h4⟩

/-! ## Reference multiply -/

theorem mult_inner (T : IntType) (Columns Other : Nat) (a b : Buf) (i j lo n : Nat) (v : Int)
    (ha : ∀ k, k < n → i * Other + (lo + k) < a.length)
    (hb : ∀ k, k < n → (lo + k) * Columns + j < b.length) :
    forRange lo n (fun k cij => do
        let x ← load a (i * Other + k)
        let y ← load b (k * Columns + j)
        pure (T.wrap (cij + x * y))) v = some (macc T Columns Other a b i j lo n v) := by
  induction n with
  | zero => rfl
  | succ n ih =>
    rw [forRange, ih (fun k hk => ha k (by omega)) (fun k hk => hb k (by omega))]
    simp [load_eq_get (ha n (by omega)), load_eq_get (hb n (by omega)), macc]

theorem macc_append (T : IntType) (Columns Other : Nat) (a b : Buf) (i j lo n n' : Nat)
    (v : Int) :
    macc T Columns Other a b i j (lo + n) n' (macc T Columns Other a b i j lo n v)
      = macc T Columns Other a b i j lo (n + n') v := by
  induction n' with
  | zero => rfl
  | succ n' ih =>
    rw [← Nat.add_assoc n n' 1, macc, macc, ih, Nat.add_assoc lo n n']

/-- Closed form of the accumulator: the start value plus the sum of products, reduced into
the element type. -/
theorem macc_sum (T : IntType) (Columns Other : Nat) (a b : Buf) (i j n : Nat) (v : Int)
    (hv : T.InRange v) :
    macc T Columns Other a b i j 0 n v
      = T.wrap (v + ∑ k in Finset.range n, get Other a i k * get Columns b k j) := by
  induction n with
  | zero => simpa [macc] using hv.symm
  | succ n ih =>
    rw [macc, ih, wrap_add_wrap, Finset.sum_range_succ, Nat.zero_add, Int.add_assoc]

theorem mult_spec (T : IntType) (Rows Columns Other : Nat) (a b m : Buf)
    (ha : Rows * Other ≤ a.length) (hb : Other * Columns ≤ b.length)
    (hc : m.length = Rows * Columns) :
    ∃ m', gemm_core.mult T Rows Columns Other a b m = some m' ∧
      Upd Columns (fun i j => i < Rows ∧ j < Columns)
        (fun i j v => macc T Columns Other a b i j 0 Other v) m m' := by
  obtain ⟨m', hm', hupd⟩ := loop2_spec Columns 0 Rows 0 Columns
    (fun i j m2 => (load m2 (i * Columns + j)).bind (fun cij =>
      forRange 0 Other (fun k cij => do
        let x ← load a (i * Other + k)
        let y ← load b (k * Columns + j)
        pure (T.wrap (cij + x * y))) cij))
    (fun i j v => macc T Columns Other a b i j 0 Other v) m (by omega)
    (by rw [Nat.zero_add]; omega)
    (by
      intro i j m1 v _ hi _ hj _ hv
      simp only [load, hv, Option.some_bind]
      apply mult_inner
      · intro k hk
        have := idx_lt (R := Rows) (i := i) (by omega) hk
        omega
      · intro k hk
        have := idx_lt (R := Other) (i := k) hk (show j < Columns by omega)
        rw [Nat.zero_add]
        omega)
  refine ⟨m', ?_, hupd.congr (fun i j _ => by omega) (fun _ _ _ _ _ => rfl)⟩
  rw [← hm']
  simp only [gemm_core.mult, bind, Option.bind_assoc]

/-! ## Blocked multiply -/

theorem forStep_zero {σ : Type} (step stop n : Nat) (body : Nat → σ → Option σ)
    (hstep : 0 < step) (hstop : stop = step * n) (s : σ) :
    forStep step stop body (stop + 1) 0 s = forRange 0 n (fun t => body (step * t)) s := by
  have hn : n ≤ stop := by
    rw [hstop]; exact Nat.le_mul_of_pos_left n hstep
  have h := forStep_eq_forRange step stop body hstep n (stop + 1) 0 s
    (by rw [Nat.zero_add, hstop]) (by omega)
  rwa [Nat.mul_zero] at h

theorem do_block_spec (T : IntType) (Rows Columns Other : Nat) (si sj sk : Nat) (a b m : Buf)
    (ha : Rows * Other ≤ a.length) (hb : Other * Columns ≤ b.length)
    (hc : m.length = Rows * Columns)
    (hi : si + blocksize ≤ Rows) (hj : sj + blocksize ≤ Columns)
    (hk : sk + blocksize ≤ Other) :
    ∃ m', gemm_core_blocked.do_block T Columns Other si sj sk a b m = some m' ∧
      Upd Columns (fun i j => si ≤ i ∧ i < si + blocksize ∧ sj ≤ j ∧ j < sj + blocksize)
        (fun i j v => macc T Columns Other a b i j sk blocksize v) m m' := by
  obtain ⟨m', hm', hupd⟩ := loop2_spec Columns si blocksize sj blocksize
    (fun i j m2 => (load m2 (i * Columns + j)).bind (fun cij =>
      forRange sk blocksize (fun k cij => do
        let x ← load a (i * Other + k)
        let y ← load b (k * Columns + j)
        pure (T.wrap (cij + x * y))) cij))
    (fun i j v => macc T Columns Other a b i j sk blocksize v) m hj
    (by rw [hc]; exact Nat.mul_le_mul_right _ hi)
    (by
      intro i j m1 v _ hi' _ hj' _ hv
      simp only [load, hv, Option.some_bind]
      apply mult_inner
      · intro k hk'
        have := idx_lt (R := Rows) (C := Other) (i := i) (j := sk + k) (by omega) (by omega)
        omega
      · intro k hk'
        have := idx_lt (R := Other) (C := Columns) (i := sk + k) (j := j) (by omega) (by omega)
        omega)
  refine ⟨m', ?_, hupd⟩
  rw [← hm']
  simp only [gemm_core_blocked.do_block, Nat.add_sub_cancel_left, bind, Option.bind_assoc]

theorem mult_blocked_spec (T : IntType) (Rows Columns Other nR nC nK : Nat) (a b m : Buf)
    (hR : Rows = blocksize * nR) (hC : Columns = blocksize * nC) (hK : Other = blocksize * nK)
    (ha : Rows * Other ≤ a.length) (hb : Other * Columns ≤ b.length)
    (hc : m.length = Rows * Columns) :
    ∃ m', gemm_core_blocked.mult T Rows Columns Other a b m = some m' ∧
      Upd Columns (fun i j => i < Rows ∧ j < Columns)
        (fun i j v => macc T Columns Other a b i j 0 Other v) m m' := by
  have hbs : blocksize = 32 := rfl
  -- the inner-dimension tiles of one output tile
  have hktiles : ∀ ti tj m1, ti < nR → tj < nC → m1.length = m.length →
      ∃ m2, forRange 0 nK (fun tk m2 => gemm_core_blocked.do_block T Columns Other
          (blocksize * ti) (blocksize * tj) (blocksize * tk) a b m2) m1 = some m2 ∧
        Upd Columns (fun i j => blocksize * ti ≤ i ∧ i < blocksize * ti + blocksize ∧
            blocksize * tj ≤ j ∧ j < blocksize * tj + blocksize)
          (fun i j v => macc T Columns Other a b i j 0 Other v) m1 m2 := by
    intro ti tj m1 hti htj hlen1
    obtain ⟨m2, hm2, hupd⟩ := forRange_inv
      (fun tk m2 => Upd Columns
          (fun i j => blocksize * ti ≤ i ∧ i < blocksize * ti + blocksize ∧
            blocksize * tj ≤ j ∧ j < blocksize * tj + blocksize)
          (fun i j v => macc T Columns Other a b i j 0 (blocksize * tk) v) m1 m2)
      0 nK (fun tk m2 => gemm_core_blocked.do_block T Columns Other
          (blocksize * ti) (blocksize * tj) (blocksize * tk) a b m2) m1
      ((Upd.id _ _ m1).congr (fun _ _ _ => Iff.rfl) (fun _ _ _ _ _ => by simp [macc]))
      (by
        intro tk m2 htk hinv
        obtain ⟨m3, hm3, hupd3⟩ := do_block_spec T Rows Columns Other
          (blocksize * ti) (blocksize * tj) (blocksize * tk) a b m2 ha hb
          (by rw [hinv.1, hlen1, hc]) (by rw [hR, hbs]; omega) (by rw [hC, hbs]; omega)
          (by rw [hK, hbs]; omega)
        refine ⟨m3, by rw [Nat.zero_add]; exact hm3, (hinv.comp hupd3).congr
          (fun _ _ _ => Iff.rfl) (fun i j v _ _ => ?_)⟩
        have h := macc_append T Columns Other a b i j 0 (blocksize * tk) blocksize v
        rw [Nat.zero_add] at h
        rw [h, Nat.mul_add, Nat.mul_one])
    exact ⟨m2, hm2, hupd.congr (fun _ _ _ => Iff.rfl) (fun i j v _ _ => by rw [← hK])⟩
  -- the output tiles of one band of rows
  have hjtiles : ∀ ti m1, ti < nR → m1.length = m.length →
      ∃ m2, forRange 0 nC (fun tj m2 => forRange 0 nK (fun tk m3 =>
          gemm_core_blocked.do_block T Columns Other
          (blocksize * ti) (blocksize * tj) (blocksize * tk) a b m3) m2) m1 = some m2 ∧
        Upd Columns
          (fun i j => blocksize * ti ≤ i ∧ i < blocksize * ti + blocksize ∧ j < Columns)
          (fun i j v => macc T Columns Other a b i j 0 Other v) m1 m2 := by
    intro ti m1 hti hlen1
    obtain ⟨m2, hm2, hupd⟩ := forRange_upd Columns
      (fun tj i j => blocksize * ti ≤ i ∧ i < blocksize * ti + blocksize ∧
            blocksize * tj ≤ j ∧ j < blocksize * tj + blocksize)
      (fun i j v => macc T Columns Other a b i j 0 Other v) 0 nC
      (fun tj m2 => forRange 0 nK (fun tk m3 => gemm_core_blocked.do_block T Columns Other
          (blocksize * ti) (blocksize * tj) (blocksize * tk) a b m3) m2) m1
      (by
        intro tj m2 htj hlen2
        rw [Nat.zero_add]
        exact hktiles ti tj m2 hti htj (by rw [hlen2, hlen1]))
      (by
        rintro t t' i j hne ⟨_, _, h1, h2⟩ ⟨_, _, h3, h4⟩
        rw [hbs] at h1 h2 h3 h4
        omega)
    refine ⟨m2, hm2, hupd.congr ?_ (fun _ _ _ _ _ => rfl)⟩
    intro i j _
    rw [hC, hbs]
    constructor
    · rintro ⟨t, h1, h2, h3, h4, h5, h6⟩
      exact ⟨h3, h4, by omega⟩
    · rintro ⟨h1, h2, h3⟩
      exact ⟨j / 32, by omega, by omega, h1, h2, by omega, by omega⟩
  obtain ⟨m', hm', hupd⟩ := forRange_upd Columns
    (fun ti i j => blocksize * ti ≤ i ∧ i < blocksize * ti + blocksize ∧ j < Columns)
    (fun i j v => macc T Columns Other a b i j 0 Other v) 0 nR
    (fun ti m1 => forRange 0 nC (fun tj m2 => forRange 0 nK (fun tk m3 =>
      gemm_core_blocked.do_block T Columns Other
        (blocksize * ti) (blocksize * tj) (blocksize * tk) a b m3) m2) m1)
    m
    (by
      intro ti m1 hti hlen1
      rw [Nat.zero_add]
      exact hjtiles ti m1 hti hlen1)
    (by
      rintro t t' i j hne ⟨h1, h2, _⟩ ⟨h3, h4, _⟩
      rw [hbs] at h1 h2 h3 h4
      omega)
  refine ⟨m', ?_, hupd.congr ?_ (fun _ _ _ _ _ => rfl)⟩
  · rw [← hm']
    simp only [gemm_core_blocked.mult]
    simp only [forStep_zero blocksize Other nK _ (by decide) hK,
      forStep_zero blocksize Columns nC _ (by decide) hC,
      forStep_zero blocksize Rows nR _ (by decide) hR]
  · intro i j _
    rw [hR, hbs]
    constructor
    · rintro ⟨t, h1, h2, h3, h4, h5⟩
      exact ⟨by omega, h5⟩
    · rintro ⟨h1, h2⟩
      exact ⟨i / 32, by omega, by omega, by omega, by omega, h2⟩


/-! ## Reading a described buffer -/

theorem Upd.getElem {C : Nat} {R : Nat → Nat → Prop} {G : Nat → Nat → Int → Int}
    {m m' : Buf} (h : Upd C R G m m') {i j : Nat} (hj : j < C) (hlt : i * C + j < m.length)
    (hr : R i j) : m'[i * C + j]? = some (G i j (get C m i j)) := by
  have hv : m[i * C + j]? = some m[i * C + j] := List.getElem?_eq_getElem hlt
  rw [(h.2 i j _ hj hv).1 hr, get_eq_of_load hv]

/-- A buffer whose every cell was rewritten is determined by the cell function. -/
theorem Upd.full_eq {C Rows : Nat} {G : Nat → Nat → Int → Int} {m m' target : Buf}
    (h : Upd C (fun i j => i < Rows ∧ j < C) G m m') (hm : m.length = Rows * C)
    (ht : target.length = Rows * C)
    (hG : ∀ i j, i < Rows → j < C → G i j (get C m i j) = get C target i j) :
    m' = target := by
  apply List.ext_getElem?
  intro p
  by_cases hp : p < Rows * C
  · have hC : 0 < C := by
      rcases Nat.eq_zero_or_pos C with h0 | h0
      · subst h0; rw [Nat.mul_zero] at hp; omega
      · exact h0
    have hdecomp : p = p / C * C + p % C := by
      have := Nat.div_add_mod p C
      rw [Nat.mul_comm] at this
      omega
    have hj : p % C < C := Nat.mod_lt _ hC
    have hi : p / C < Rows := by
      rw [Nat.div_lt_iff_lt_mul hC]; exact hp
    rw [hdecomp, h.getElem hj (by rw [← hdecomp, hm]; exact hp) ⟨hi, hj⟩, hG _ _ hi hj]
    have hlt : p / C * C + p % C < target.length := by rw [← hdecomp, ht]; exact hp
    rw [List.getElem?_eq_getElem hlt]
    simp [get, List.getD, List.getElem?_eq_getElem hlt]
  · rw [List.getElem?_eq_none (by rw [h.1, hm]; omega),
      List.getElem?_eq_none (by rw [ht]; omega)]

/-! ## add, sub, transpose -/

theorem add_spec (T : IntType) (Rows Columns : Nat) (a b m : Buf)
    (ha : Rows * Columns ≤ a.length) (hb : Rows * Columns ≤ b.length)
    (hc : m.length = Rows * Columns) :
    ∃ m', gemm_core.add T Rows Columns a b m = some m' ∧
      Upd Columns (fun i j => i < Rows ∧ j < Columns)
        (fun i j _ => T.wrap (get Columns a i j + get Columns b i j)) m m' := by
  obtain ⟨m', hm', hupd⟩ := loop2_spec Columns 0 Rows 0 Columns
    (fun i j _ => (load a (i * Columns + j)).bind (fun x =>
      (load b (i * Columns + j)).bind (fun y => some (T.wrap (x + y)))))
    (fun i j _ => T.wrap (get Columns a i j + get Columns b i j)) m (by omega)
    (by rw [Nat.zero_add]; omega)
    (by
      intro i j m1 v _ hi _ hj _ _
      have := idx_lt (R := Rows) (C := Columns) (i := i) (j := j) (by omega) (by omega)
      simp only [load_eq_get (show i * Columns + j < a.length by omega),
        load_eq_get (show i * Columns + j < b.length by omega), Option.some_bind])
  refine ⟨m', ?_, hupd.congr (fun i j _ => by omega) (fun _ _ _ _ _ => rfl)⟩
  rw [← hm']
  simp only [gemm_core.add, bind, pure, Option.bind_assoc, Option.some_bind]

theorem sub_spec (T : IntType) (Rows Columns : Nat) (a b m : Buf)
    (ha : Rows * Columns ≤ a.length) (hb : Rows * Columns ≤ b.length)
    (hc : m.length = Rows * Columns) :
    ∃ m', gemm_core.sub T Rows Columns a b m = some m' ∧
      Upd Columns (fun i j => i < Rows ∧ j < Columns)
        (fun i j _ => T.wrap (get Columns a i j - get Columns b i j)) m m' := by
  obtain ⟨m', hm', hupd⟩ := loop2_spec Columns 0 Rows 0 Columns
    (fun i j _ => (load a (i * Columns + j)).bind (fun x =>
      (load b (i * Columns + j)).bind (fun y => some (T.wrap (x - y)))))
    (fun i j _ => T.wrap (get Columns a i j - get Columns b i j)) m (by omega)
    (by rw [Nat.zero_add]; omega)
    (by
      intro i j m1 v _ hi _ hj _ _
      have := idx_lt (R := Rows) (C := Columns) (i := i) (j := j) (by omega) (by omega)
      simp only [load_eq_get (show i * Columns + j < a.length by omega),
        load_eq_get (show i * Columns + j < b.length by omega), Option.some_bind])
  refine ⟨m', ?_, hupd.congr (fun i j _ => by omega) (fun _ _ _ _ _ => rfl)⟩
  rw [← hm']
  simp only [gemm_core.sub, bind, pure, Option.bind_assoc, Option.some_bind]

theorem transpose_spec (Rows Columns : Nat) (a m : Buf)
    (ha : ∀ i j, i < Rows → j < Columns → j * Columns + i < a.length)
    (hc : m.length = Rows * Columns) :
    ∃ m', gemm_core.transpose Rows Columns a m = some m' ∧
      Upd Columns (fun i j => i < Rows ∧ j < Columns) (fun i j _ => get Columns a j i) m m' := by
  obtain ⟨m', hm', hupd⟩ := loop2_spec Columns 0 Rows 0 Columns
    (fun i j _ => load a (j * Columns + i))
    (fun i j _ => get Columns a j i) m (by omega)
    (by rw [Nat.zero_add]; omega)
    (by
      intro i j m1 v _ hi _ hj _ _
      exact load_eq_get (ha i j (by omega) (by omega)))
  refine ⟨m', ?_, hupd.congr (fun i j _ => by omega) (fun _ _ _ _ _ => rfl)⟩
  rw [← hm']
  simp only [gemm_core.transpose, bind]


theorem iota_length (n : Nat) : (iota n).length = n := by simp [iota]

theorem iota_getElem (n p : Nat) (hp : p < n) : (iota n)[p]? = some (p : Int) := by
  rw [iota, List.getElem?_map, List.getElem?_range hp]
  rfl

/-! ## Branchless selector masks -/

theorem mask_of_one (W : Nat) : (((1 : Int) - 1) % 2 ^ W).toNat = 0 := by simp

theorem mask_of_zero (W : Nat) : (((0 : Int) - 1) % 2 ^ W).toNat = 2 ^ W - 1 := by
  have hpos : (1 : Int) ≤ 2 ^ W := by exact_mod_cast Nat.one_le_two_pow
  have h1 : ((0 : Int) - 1) % 2 ^ W = 2 ^ W - 1 := by
    rw [Int.zero_sub, Int.neg_emod, Int.emod_eq_of_lt (by omega) (by omega)]
  rw [h1]
  have h2 : ((2 : Int) ^ W - 1) = ((2 ^ W - 1 : Nat) : Int) := by
    rw [Nat.cast_sub Nat.one_le_two_pow]; simp
  rw [h2, Int.toNat_ofNat]

/-! ## trace -/

theorem wrap_zero (T : IntType) (hT : 0 < T.bits) : T.wrap 0 = 0 := by
  unfold IntType.wrap
  split
  · have hlt : (2 : Int) ^ (T.bits - 1) < 2 ^ T.bits := by
      have h : T.bits = (T.bits - 1) + 1 := by omega
      have hpos : (0 : Int) < 2 ^ (T.bits - 1) := by positivity
      calc (2 : Int) ^ (T.bits - 1) < 2 ^ (T.bits - 1) * 2 := by omega
        _ = 2 ^ ((T.bits - 1) + 1) := (pow_succ 2 (T.bits - 1)).symm
        _ = 2 ^ T.bits := by rw [← h]
    have hpos : (0 : Int) ≤ 2 ^ (T.bits - 1) := by positivity
    rw [Int.zero_add, Int.emod_eq_of_lt hpos hlt, Int.sub_self]
  · simp

theorem trace_spec (T : IntType) (Rows Columns : Nat) (a : Buf) (hT : 0 < T.bits)
    (ha : ∀ i, i < Rows → i * Columns + i < a.length) :
    gemm_core.trace T Rows Columns a
      = some (T.wrap (∑ i in Finset.range Rows, get Columns a i i)) := by
  obtain ⟨r, hr, hP⟩ := forRange_inv
    (fun t ret => ret = T.wrap (∑ i in Finset.range t, get Columns a i i)) 0 Rows
    (fun i ret => do
      let current := i * Columns + i
      let cij ← load a current
      pure (T.wrap (ret + cij))) 0
    (by simp [wrap_zero T hT])
    (by
      intro t ret ht hinv
      refine ⟨T.wrap (ret + get Columns a t t), ?_, ?_⟩
      · simp [load_eq_get (ha t ht)]
      · simp only [hinv, wrap_add_wrap, Finset.sum_range_succ])
  rw [gemm_core.trace, hr, hP]

/-! ## min and max -/

theorem select_ptr_one (W ptr_a ptr_b : Nat) : branchless_select_ptr W 1 ptr_a ptr_b = ptr_a := by
  rw [branchless_select_ptr, mask_of_one, Nat.zero_and, Nat.zero_xor]

theorem select_ptr_zero (W ptr_a ptr_b : Nat) (ha : ptr_a < 2 ^ W) (hb : ptr_b < 2 ^ W) :
    branchless_select_ptr W 0 ptr_a ptr_b = ptr_b := by
  rw [branchless_select_ptr, mask_of_zero, Nat.land_comm,
    Nat.and_pow_two_sub_one_of_lt_two_pow (Nat.xor_lt_two_pow hb ha), Nat.xor_assoc,
    Nat.xor_self, Nat.xor_zero]

theorem Layout.elem_lt (L : Layout) {n idx : Nat} (hidx : idx < n) :
    L.base + L.size * idx + L.size ≤ L.base + L.size * n := by
  have h : L.size * (idx + 1) ≤ L.size * n := Nat.mul_le_mul_left _ hidx
  rw [Nat.mul_add, Nat.mul_one] at h
  omega

theorem Layout.mem_ret (L : Layout) (a : Buf) (ret : Int) : L.mem a ret L.ptr_ret = some ret := by
  simp [Layout.mem]

theorem Layout.mem_elem {L : Layout} {a : Buf} {idx : Nat} (ret : Int)
    (hL : L.Valid a.length) (hidx : idx < a.length) :
    L.mem a ret (L.base + L.size * idx) = load a idx := by
  have h1 := L.elem_lt hidx
  obtain ⟨hs, _, _, hdis⟩ := hL
  have hne : L.base + L.size * idx ≠ L.ptr_ret := by omega
  have hsub : L.base + L.size * idx - L.base = L.size * idx := by omega
  rw [Layout.mem, if_neg hne, hsub, Nat.mul_mod_right, Nat.mul_div_cancel_left _ hs,
    if_pos ⟨by omega, rfl⟩]

/-- One step of `min` or `max`: the selector returns `cij` when the flag is set and `ret`
otherwise. -/
theorem select_step {L : Layout} {a : Buf} {idx : Nat} {v : Int} (ret : Int) (flag : Prop)
    [Decidable flag] (hL : L.Valid a.length) (hv : a[idx]? = some v) :
    branchless_select L.W (L.mem a ret) (if flag then 1 else 0) (L.base + L.size * idx)
      L.ptr_ret = some (if flag then v else ret) := by
  have hidx : idx < a.length := by
    by_contra hge
    rw [List.getElem?_eq_none (by omega)] at hv
    exact Option.noConfusion hv
  have h1 := L.elem_lt hidx
  by_cases hf : flag
  · rw [if_pos hf, if_pos hf, branchless_select, select_ptr_one, L.mem_elem ret hL hidx, load, hv]
  · rw [if_neg hf, if_neg hf, branchless_select,
      select_ptr_zero _ _ _ (by have := hL.2.1; have := hL.1; omega)
        (by have := hL.2.2.1; have := hL.1; omega),
      L.mem_ret]

/-- A double loop that reads every cell once, in row-major order, and folds it into an
accumulator: an invariant over the number of cells read holds at the end. -/
theorem scan2_inv (Rows Columns : Nat) (a : Buf) (f : Int → Int → Int)
    (body : Nat → Nat → Int → Option Int) (P : Nat → Int → Prop) (r0 : Int)
    (ha : a.length = Rows * Columns)
    (hbody : ∀ i j ret v, i < Rows → j < Columns → a[i * Columns + j]? = some v →
      body i j ret = some (f ret v))
    (h0 : P 0 r0)
    (hstep : ∀ n ret v, n < Rows * Columns → a[n]? = some v → P n ret →
      P (n + 1) (f ret v)) :
    ∃ r, forRange 0 Rows (fun i ret => forRange 0 Columns (fun j ret => body i j ret) ret) r0
        = some r ∧ P (Rows * Columns) r := by
  apply forRange_inv (fun t ret => P (t * Columns) ret)
  · rw [Nat.zero_mul]; exact h0
  · intro t ret ht hinv
    have hrow := forRange_inv (fun s ret => P (t * Columns + s) ret) 0 Columns
      (fun j ret => body (0 + t) j ret) ret hinv
      (by
        intro s ret1 hs hinv1
        have hlt : t * Columns + s < Rows * Columns := idx_lt ht hs
        have hv : a[t * Columns + s]? = some a[t * Columns + s] :=
          List.getElem?_eq_getElem (by rw [ha]; exact hlt)
        refine ⟨f ret1 a[t * Columns + s], ?_, hstep _ _ _ hlt hv hinv1⟩
        rw [Nat.zero_add, Nat.zero_add]
        exact hbody t s ret1 _ ht hs hv)
    obtain ⟨r, hr, hP⟩ := hrow
    refine ⟨r, hr, ?_⟩
    rw [Nat.add_mul, Nat.one_mul]
    exact hP

theorem index_of_mem {a : Buf} {x : Int} (hx : x ∈ a) :
    ∃ p, p < a.length ∧ a[p]? = some x := by
  obtain ⟨p, hp⟩ := List.mem_iff_getElem?.1 hx
  refine ⟨p, ?_, hp⟩
  by_contra hge
  rw [List.getElem?_eq_none (by omega)] at hp
  exact Option.noConfusion hp

/-- The result of `max` is the greatest value among 0 and the elements of `a`. -/
theorem max_spec (L : Layout) (Rows Columns : Nat) (a : Buf) (ha : a.length = Rows * Columns)
    (hL : L.Valid a.length) :
    ∃ M, gemm_core.max L Rows Columns a = some M ∧ 0 ≤ M ∧ (∀ x ∈ a, x ≤ M) ∧
      (M = 0 ∨ M ∈ a) := by
  obtain ⟨M, hM, h0, hub, hmem⟩ := scan2_inv Rows Columns a
    (fun ret v => if v > ret then v else ret)
    (fun i j ret => (load a (i * Columns + j)).bind (fun cij =>
      branchless_select L.W (L.mem a ret) (if cij > ret then 1 else 0)
        (L.base + L.size * (i * Columns + j)) L.ptr_ret))
    (fun n M => 0 ≤ M ∧ (∀ p, p < n → ∀ v, a[p]? = some v → v ≤ M) ∧
      (M = 0 ∨ ∃ p, p < n ∧ a[p]? = some M)) 0 ha
    (by
      intro i j ret v _ _ hv
      simp only [load, hv, Option.some_bind]
      exact select_step ret (v > ret) hL hv)
    ⟨le_refl 0, fun p hp => absurd hp (Nat.not_lt_zero p), Or.inl rfl⟩
    (by
      rintro n ret v hn hv ⟨h0, hub, hmem⟩
      by_cases hgt : v > ret
      · simp only [if_pos hgt]
        refine ⟨by omega, fun p hp w hw => ?_, Or.inr ⟨n, by omega, hv⟩⟩
        by_cases hpn : p = n
        · subst hpn; rw [hv] at hw; cases hw; exact le_refl _
        · have := hub p (by omega) w hw; omega
      · simp only [if_neg hgt]
        refine ⟨h0, fun p hp w hw => ?_, ?_⟩
        · by_cases hpn : p = n
          · subst hpn; rw [hv] at hw; cases hw; omega
          · exact hub p (by omega) w hw
        · rcases hmem with h | ⟨p, hp, hpv⟩
          · exact Or.inl h
          · exact Or.inr ⟨p, by omega, hpv⟩)
  refine ⟨M, hM, h0, fun x hx => ?_, ?_⟩
  · obtain ⟨p, hp, hpx⟩ := index_of_mem hx
    exact hub p (by rw [← ha]; exact hp) x hpx
  · rcases hmem with h | ⟨p, _, hpv⟩
    · exact Or.inl h
    · exact Or.inr (List.getElem?_mem hpv)

/-- The result of `min` is the least value among 0 and the elements of `a`. -/
theorem min_spec (L : Layout) (Rows Columns : Nat) (a : Buf) (ha : a.length = Rows * Columns)
    (hL : L.Valid a.length) :
    ∃ M, gemm_core.min L Rows Columns a = some M ∧ M ≤ 0 ∧ (∀ x ∈ a, M ≤ x) ∧
      (M = 0 ∨ M ∈ a) := by
  obtain ⟨M, hM, h0, hlb, hmem⟩ := scan2_inv Rows Columns a
    (fun ret v => if v < ret then v else ret)
    (fun i j ret => (load a (i * Columns + j)).bind (fun cij =>
      branchless_select L.W (L.mem a ret) (if cij < ret then 1 else 0)
        (L.base + L.size * (i * Columns + j)) L.ptr_ret))
    (fun n M => M ≤ 0 ∧ (∀ p, p < n → ∀ v, a[p]? = some v → M ≤ v) ∧
      (M = 0 ∨ ∃ p, p < n ∧ a[p]? = some M)) 0 ha
    (by
      intro i j ret v _ _ hv
      simp only [load, hv, Option.some_bind]
      exact select_step ret (v < ret) hL hv)
    ⟨le_refl 0, fun p hp => absurd hp (Nat.not_lt_zero p), Or.inl rfl⟩
    (by
      rintro n ret v hn hv ⟨h0, hlb, hmem⟩
      by_cases hlt : v < ret
      · simp only [if_pos hlt]
        refine ⟨by omega, fun p hp w hw => ?_, Or.inr ⟨n, by omega, hv⟩⟩
        by_cases hpn : p = n
        · subst hpn; rw [hv] at hw; cases hw; exact le_refl _
        · have := hlb p (by omega) w hw; omega
      · simp only [if_neg hlt]
        refine ⟨h0, fun p hp w hw => ?_, ?_⟩
        · by_cases hpn : p = n
          · subst hpn; rw [hv] at hw; cases hw; omega
          · exact hlb p (by omega) w hw
        · rcases hmem with h | ⟨p, hp, hpv⟩
          · exact Or.inl h
          · exact Or.inr ⟨p, by omega, hpv⟩)
  refine ⟨M, hM, h0, fun x hx => ?_, ?_⟩
  · obtain ⟨p, hp, hpx⟩ := index_of_mem hx
    exact hlb p (by rw [← ha]; exact hp) x hpx
  · rcases hmem with h | ⟨p, _, hpv⟩
    · exact Or.inl h
    · exact Or.inr (List.getElem?_mem hpv)

/-! ## Masks of the selector for other flag values -/

/-- For an `int` flag other than 0 and 1, converted to an address of at least 32 bits, the
mask `compare - 1` is neither all-zero nor all-one bits. -/
theorem mask_of_other (W : Nat) (compare : Int) (hW : 32 ≤ W) (hlo : -2 ^ 31 ≤ compare)
    (hhi : compare < 2 ^ 31) (h0 : compare ≠ 0) (h1 : compare ≠ 1) :
    ((compare - 1) % 2 ^ W).toNat < 2 ^ W ∧ ((compare - 1) % 2 ^ W).toNat ≠ 0 ∧
      ((compare - 1) % 2 ^ W).toNat ≠ 2 ^ W - 1 := by
  have hP : (2 : Int) ^ 32 ≤ 2 ^ W := pow_le_pow_right₀ (by norm_num) hW
  have hPn : (1 : Nat) ≤ 2 ^ W := Nat.one_le_two_pow
  have hcast : ((2 ^ W : Nat) : Int) = (2 : Int) ^ W := by push_cast; rfl
  have hnn : 0 ≤ (compare - 1) % 2 ^ W := Int.emod_nonneg _ (by positivity)
  have hlt : (compare - 1) % 2 ^ W < 2 ^ W := Int.emod_lt_of_pos _ (by positivity)
  have hto : (((compare - 1) % 2 ^ W).toNat : Int) = (compare - 1) % 2 ^ W :=
    Int.toNat_of_nonneg hnn
  have hval : (compare - 1) % 2 ^ W = compare - 1 ∨
      (compare - 1) % 2 ^ W = compare - 1 + 2 ^ W := by
    by_cases hc : 0 ≤ compare - 1
    · exact Or.inl (Int.emod_eq_of_lt hc (by omega))
    · right
      rw [← Int.add_emod_self, Int.emod_eq_of_lt (by omega) (by omega)]
  refine ⟨?_, ?_, ?_⟩
  · omega
  · intro h
    rw [h] at hto
    rcases hval with hv | hv <;> omega
  · intro h
    rw [h, Nat.cast_sub hPn, hcast] at hto
    rcases hval with hv | hv <;> omega

/-! ## Packed-integer kernel -/

theorem forRange_const {σ : Type} (lo n : Nat) (body : Nat → σ → Option σ) (s : σ)
    (h : ∀ t, t < n → body (lo + t) s = some s) : forRange lo n body s = some s := by
  obtain ⟨s', hs', hP⟩ := forRange_inv (fun _ s' => s' = s) lo n body s rfl
    (fun t s1 ht hs1 => ⟨s, by rw [hs1]; exact h t ht, rfl⟩)
  rw [hs', hP]

theorem byte_of_lt (x : Int) : byte_of x < 256 := by
  unfold byte_of
  omega

theorem wrap_byte_of (x : Int) (hx : int8.InRange x) : int8.wrap (byte_of x) = x := by
  unfold IntType.InRange at hx
  simp only [IntType.wrap, int8, if_true] at hx ⊢
  unfold byte_of
  norm_num at hx ⊢
  omega

theorem load32_none (m : Buf) (off : Nat) (h : m.length ≤ off + 3) : load32 m off = none := by
  have h3 : load m (off + 3) = none := by
    rw [load, List.getElem?_eq_none h]
  unfold load32
  cases load m off <;> cases load m (off + 1) <;> cases load m (off + 2) <;> simp [h3]

theorem load32_some (m : Buf) (off : Nat) (h : off + 3 < m.length) :
    ∃ b0 b1 b2 b3, m[off]? = some b0 ∧ m[off + 1]? = some b1 ∧ m[off + 2]? = some b2 ∧
      m[off + 3]? = some b3 ∧
      load32 m off
        = some (byte_of b0 + 2 ^ 8 * byte_of b1 + 2 ^ 16 * byte_of b2 + 2 ^ 24 * byte_of b3) := by
  have e0 : m[off]? = some m[off] := List.getElem?_eq_getElem (by omega)
  have e1 : m[off + 1]? = some m[off + 1] := List.getElem?_eq_getElem (by omega)
  have e2 : m[off + 2]? = some m[off + 2] := List.getElem?_eq_getElem (by omega)
  have e3 : m[off + 3]? = some m[off + 3] := List.getElem?_eq_getElem (by omega)
  refine ⟨_, _, _, _, e0, e1, e2, e3, ?_⟩
  simp [load32, load, e0, e1, e2, e3]

theorem store_same (m : Buf) (i : Nat) (v : Int) (h : m[i]? = some v) :
    store m i v = some m := by
  obtain ⟨hlt, _⟩ := List.getElem?_eq_some_iff.1 h
  rw [store, if_pos hlt]
  congr 1
  apply List.ext_getElem?
  intro p
  by_cases hp : i = p
  · subst hp
    rw [List.getElem?_set_self hlt, h]
  · rw [List.getElem?_set_ne hp]

/-- Storing back the word that was loaded from a buffer of `int8_t` values leaves the buffer
as it was. -/
theorem store32_load32 (m : Buf) (off w : Nat) (h : off + 3 < m.length)
    (hin : ∀ x ∈ m, int8.InRange x) (hw : load32 m off = some w) :
    w < 2 ^ 32 ∧ store32 m off w = some m := by
  obtain ⟨b0, b1, b2, b3, e0, e1, e2, e3, hl⟩ := load32_some m off h
  rw [hl] at hw
  have hw' := Option.some.inj hw
  have l0 := byte_of_lt b0
  have l1 := byte_of_lt b1
  have l2 := byte_of_lt b2
  have l3 := byte_of_lt b3
  have h0 : w % 2 ^ 8 = byte_of b0 := by omega
  have h1 : w / 2 ^ 8 % 2 ^ 8 = byte_of b1 := by omega
  have h2 : w / 2 ^ 16 % 2 ^ 8 = byte_of b2 := by omega
  have h3 : w / 2 ^ 24 % 2 ^ 8 = byte_of b3 := by omega
  have c0 : (w : Int) % 2 ^ 8 = (byte_of b0 : Int) := by omega
  have c1 : (w : Int) / 2 ^ 8 % 2 ^ 8 = (byte_of b1 : Int) := by omega
  have c2 : (w : Int) / 2 ^ 16 % 2 ^ 8 = (byte_of b2 : Int) := by omega
  have c3 : (w : Int) / 2 ^ 24 % 2 ^ 8 = (byte_of b3 : Int) := by omega
  refine ⟨by omega, ?_⟩
  unfold store32
  simp only [c0, c1, c2, c3, wrap_byte_of _ (hin _ (List.getElem?_mem e0)),
    wrap_byte_of _ (hin _ (List.getElem?_mem e1)), wrap_byte_of _ (hin _ (List.getElem?_mem e2)),
    wrap_byte_of _ (hin _ (List.getElem?_mem e3)), bind, store_same m off b0 e0,
    Option.some_bind, store_same m (off + 1) b1 e1, store_same m (off + 2) b2 e2,
    store_same m (off + 3) b3 e3]

/-- The packed operand built from a word of `a` is always 0. -/
theorem var_a0_eq_zero (var_a : Nat) :
    __PKHTB var_a ((var_a <<< 16) % 2 ^ 32) &&& 0x0F0F = 0 := by
  have hlow : ((var_a <<< 16) % 2 ^ 32) &&& 0x0000FFFF = 0 := by
    have h : (0x0000FFFF : Nat) = 2 ^ 16 - 1 := by norm_num
    rw [h, Nat.and_pow_two_sub_one_eq_mod, Nat.shiftLeft_eq]
    omega
  have hmask : (0xFFFF0000 : Nat) &&& 0x0F0F = 0 := by decide
  rw [__PKHTB, hlow, Nat.or_zero, Nat.and_assoc, hmask, Nat.and_zero]

theorem s16_zero : s16 0 = 0 := by decide

theorem smlad_zero (y acc : Nat) (h : acc < 2 ^ 32) : __SMLAD 0 y acc = acc := by
  unfold __SMLAD
  rw [Nat.zero_div, s16_zero, Int.zero_mul, Int.zero_mul, Int.add_zero, Int.add_zero,
    Int.emod_eq_of_lt (by omega) (by exact_mod_cast h), Int.toNat_ofNat]

/-- When every 4-byte load of `a` is inside its buffer, the packed-integer kernel returns
and leaves `C` as it was. -/
theorem mve_mult_unchanged (Rows Columns Other : Nat) (a b m : Buf)
    (hC : Columns % vectorization = 0)
    (ha : ∀ i k, i < Rows → k < Other → i * Other + k + 3 < a.length)
    (hb : Other * Columns ≤ b.length) (hc : m.length = Rows * Columns)
    (hin : ∀ x ∈ m, int8.InRange x) :
    gemm_core_mve.mult Rows Columns Other a b m = some m := by
  have hvec : vectorization = 4 := rfl
  have hCn : Columns = vectorization * (Columns / vectorization) :=
    Nat.eq_mul_of_div_eq_right (Nat.dvd_of_mod_eq_zero hC) rfl
  unfold gemm_core_mve.mult
  apply forRange_const
  intro i hi
  rw [forStep_zero vectorization Columns (Columns / vectorization) _ (by decide) hCn]
  apply forRange_const
  intro t ht
  rw [Nat.zero_add, Nat.zero_add]
  have hj : vectorization * t + 3 < Columns := by
    rw [hvec] at hCn ht ⊢; omega
  have hcur : i * Columns + vectorization * t + 3 < m.length := by
    have := idx_lt (R := Rows) (C := Columns) (i := i) (j := vectorization * t + 3) hi hj
    rw [hc]; omega
  obtain ⟨c0, c1, c2, c3, _, _, _, _, hl⟩ := load32_some m _ hcur
  obtain ⟨hw, hst⟩ := store32_load32 m _ _ hcur hin hl
  have hinner : forRange 0 Other (fun k c0 => do
        let var_a ← load32 a (i * Other + k)
        let var_b ← load32 b (k * Columns + vectorization * t)
        let var_a0 := __PKHTB var_a ((var_a <<< 16) % 2 ^ 32) &&& 0x0F0F
        let var_b0 := __PKHTB var_b ((var_b <<< 8) % 2 ^ 32) &&& 0x0F0F
        let var_b1 := __PKHTB (var_b >>> 16) (var_b >>> 8) &&& 0x0F0F
        let result := __SMLAD var_a0 var_b0 c0
        pure (__SMLAD var_a0 var_b1 result))
      (byte_of c0 + 2 ^ 8 * byte_of c1 + 2 ^ 16 * byte_of c2 + 2 ^ 24 * byte_of c3)
      = some (byte_of c0 + 2 ^ 8 * byte_of c1 + 2 ^ 16 * byte_of c2 + 2 ^ 24 * byte_of c3) := by
    apply forRange_const
    intro k hk
    rw [Nat.zero_add]
    obtain ⟨_, _, _, _, _, _, _, _, hla⟩ := load32_some a _ (ha i k hi hk)
    have hbk : k * Columns + vectorization * t + 3 < b.length := by
      have := idx_lt (R := Other) (C := Columns) (i := k) (j := vectorization * t + 3) hk hj
      omega
    obtain ⟨_, _, _, _, _, _, _, _, hlb⟩ := load32_some b _ hbk
    simp only [bind, pure, hla, hlb, Option.some_bind, var_a0_eq_zero, smlad_zero _ _ hw]
  simp only [bind, hl, Option.some_bind] at hinner ⊢
  rw [hinner, Option.some_bind, hst]

/-- On a buffer `a` of exactly `Rows * Other` bytes the packed-integer kernel has no defined
result: the load of `a` in its last row and last step runs past the end. -/
theorem mve_mult_exact_none (Rows Columns Other : Nat) (a b m : Buf) (hR : 1 ≤ Rows)
    (hK : 1 ≤ Other) (hC4 : vectorization ≤ Columns) (hC : Columns % vectorization = 0)
    (ha : a.length = Rows * Other) :
    gemm_core_mve.mult Rows Columns Other a b m = none := by
  have hvec : vectorization = 4 := rfl
  have hCn : Columns = vectorization * (Columns / vectorization) :=
    Nat.eq_mul_of_div_eq_right (Nat.dvd_of_mod_eq_zero hC) rfl
  have hlast : a.length ≤ (0 + (Rows - 1)) * Other + (0 + (Other - 1)) + 3 := by
    have h : (Rows - 1 + 1) * Other = Rows * Other := by
      rw [Nat.sub_add_cancel hR]
    rw [Nat.add_mul, Nat.one_mul] at h
    rw [ha, Nat.zero_add, Nat.zero_add]
    omega
  unfold gemm_core_mve.mult
  apply forRange_none 0 Rows _ m (Rows - 1) (by omega)
  intro s1
  rw [forStep_zero vectorization Columns (Columns / vectorization) _ (by decide) hCn]
  apply forRange_none 0 (Columns / vectorization) _ s1 0 (by rw [hvec] at hC4 ⊢; omega)
  intro s2
  have hinner : ∀ c0 : Nat, forRange 0 Other (fun k c0 => do
        let var_a ← load32 a ((0 + (Rows - 1)) * Other + k)
        let var_b ← load32 b (k * Columns + vectorization * (0 + 0))
        let var_a0 := __PKHTB var_a ((var_a <<< 16) % 2 ^ 32) &&& 0x0F0F
        let var_b0 := __PKHTB var_b ((var_b <<< 8) % 2 ^ 32) &&& 0x0F0F
        let var_b1 := __PKHTB (var_b >>> 16) (var_b >>> 8) &&& 0x0F0F
        let result := __SMLAD var_a0 var_b0 c0
        pure (__SMLAD var_a0 var_b1 result)) c0 = none := by
    intro c0
    apply forRange_none 0 Other _ c0 (Other - 1) (by omega)
    intro c1
    simp only [bind, load32_none a _ hlast, Option.none_bind]
  cases hl : load32 s2 ((0 + (Rows - 1)) * Columns + vectorization * (0 + 0)) with
  | none => simp only [bind, hl, Option.none_bind]
  | some w =>
    have h := hinner w
    simp only [bind, hl, Option.some_bind] at h ⊢
    rw [h, Option.none_bind]

/-! ## Index triples of the blocked multiply -/

/-- A loop whose iteration `t` appends a duplicate-free list of exactly the items of `R t`,
the sets `R t` being pairwise disjoint, appends a duplicate-free list of exactly the items
of their union `R'`. -/
theorem forRange_visits {α : Type} (R : Nat → α → Prop) (R' : α → Prop) (lo n : Nat)
    (body : Nat → List α → Option (List α)) (tr0 : List α)
    (hbody : ∀ t tr1, t < n → ∃ tr2, body (lo + t) tr1 = some (tr1 ++ tr2) ∧ tr2.Nodup ∧
      ∀ x, x ∈ tr2 ↔ R (lo + t) x)
    (hdisj : ∀ t t' x, t ≠ t' → R t x → R t' x → False)
    (hR' : ∀ x, R' x ↔ ∃ t, lo ≤ t ∧ t < lo + n ∧ R t x) :
    ∃ tr, forRange lo n body tr0 = some (tr0 ++ tr) ∧ tr.Nodup ∧
      ∀ x, x ∈ tr ↔ R' x := by
  obtain ⟨s, hs, tr, rfl, hnd, hmem⟩ := forRange_inv
    (fun k s => ∃ tr, s = tr0 ++ tr ∧ tr.Nodup ∧
      ∀ x, x ∈ tr ↔ ∃ t, lo ≤ t ∧ t < lo + k ∧ R t x) lo n body tr0
    ⟨[], by simp, List.nodup_nil, fun x => ⟨fun h => absurd h (List.not_mem_nil x),
      fun ⟨t, h1, h2, _⟩ => by omega⟩⟩
    (by
      rintro k s1 hk ⟨tr, rfl, hnd, hmem⟩
      obtain ⟨tr2, hb, hnd2, hmem2⟩ := hbody k (tr0 ++ tr) hk
      refine ⟨tr0 ++ tr ++ tr2, hb, tr ++ tr2, by rw [List.append_assoc], ?_, ?_⟩
      · rw [List.nodup_append]
        refine ⟨hnd, hnd2, ?_⟩
        intro x hx hx2
        obtain ⟨t, h1, h2, h3⟩ := (hmem x).1 hx
        exact hdisj t (lo + k) x (by omega) h3 ((hmem2 x).1 hx2)
      · intro x
        rw [List.mem_append, hmem, hmem2]
        constructor
        · rintro (⟨t, h1, h2, h3⟩ | h)
          · exact ⟨t, h1, by omega, h3⟩
          · exact ⟨lo + k, by omega, by omega, h⟩
        · rintro ⟨t, h1, h2, h3⟩
          by_cases ht : t = lo + k
          · subst ht; exact Or.inr h3
          · exact Or.inl ⟨t, h1, by omega, h3⟩)
  exact ⟨tr, hs, hnd, fun x => (hmem x).trans (hR' x).symm⟩

theorem do_block_visits_spec (si sj sk : Nat) (tr0 : List (Nat × Nat × Nat)) :
    ∃ tr, gemm_core_blocked.do_block_visits si sj sk tr0 = some (tr0 ++ tr) ∧ tr.Nodup ∧
      ∀ x : Nat × Nat × Nat, x ∈ tr ↔
        (si ≤ x.1 ∧ x.1 < si + blocksize) ∧ (sj ≤ x.2.1 ∧ x.2.1 < sj + blocksize) ∧
          (sk ≤ x.2.2 ∧ x.2.2 < sk + blocksize) := by
  unfold gemm_core_blocked.do_block_visits
  simp only [Nat.add_sub_cancel_left]
  apply forRange_visits (fun i x => x.1 = i ∧ (sj ≤ x.2.1 ∧ x.2.1 < sj + blocksize) ∧
      (sk ≤ x.2.2 ∧ x.2.2 < sk + blocksize))
  · intro ti tr1 _
    apply forRange_visits (fun j x => x.1 = si + ti ∧ x.2.1 = j ∧
      (sk ≤ x.2.2 ∧ x.2.2 < sk + blocksize))
    · intro tj tr2 _
      apply forRange_visits (fun k x => x = (si + ti, sj + tj, k))
      · intro tk tr3 _
        exact ⟨[(si + ti, sj + tj, sk + tk)], rfl, List.nodup_singleton _,
          fun x => List.mem_singleton⟩
      · rintro t t' x hne rfl h
        exact hne (Prod.mk.inj (Prod.mk.inj h).2).2
      · rintro ⟨x1, x2, x3⟩
        constructor
        · rintro ⟨rfl, rfl, h1, h2⟩; exact ⟨x3, h1, h2, rfl⟩
        · rintro ⟨t, h1, h2, h⟩
          obtain ⟨rfl, h'⟩ := Prod.mk.inj h
          obtain ⟨rfl, rfl⟩ := Prod.mk.inj h'
          exact ⟨rfl, rfl, h1, h2⟩
    · rintro t t' x hne ⟨_, h, _⟩ ⟨_, h', _⟩
      exact hne (h.symm.trans h')
    · intro x
      constructor
      · rintro ⟨h1, ⟨h2, h3⟩, h4⟩; exact ⟨x.2.1, h2, h3, h1, rfl, h4⟩
      · rintro ⟨t, h1, h2, h3, rfl, h4⟩; exact ⟨h3, ⟨h1, h2⟩, h4⟩
  · rintro t t' x hne ⟨h, _⟩ ⟨h', _⟩
    exact hne (h.symm.trans h')
  · intro x
    constructor
    · rintro ⟨⟨h1, h2⟩, h3, h4⟩; exact ⟨x.1, h1, h2, rfl, h3, h4⟩
    · rintro ⟨t, h1, h2, rfl, h3, h4⟩; exact ⟨⟨h1, h2⟩, h3, h4⟩

theorem mult_visits_spec (Rows Columns Other nR nC nK : Nat)
    (hR : Rows = blocksize * nR) (hC : Columns = blocksize * nC)
    (hK : Other = blocksize * nK) :
    ∃ tr, gemm_core_blocked.mult_visits Rows Columns Other = some tr ∧ tr.Nodup ∧
      ∀ x : Nat × Nat × Nat, x ∈ tr ↔ x.1 < Rows ∧ x.2.1 < Columns ∧ x.2.2 < Other := by
  have hbs : blocksize = 32 := rfl
  unfold gemm_core_blocked.mult_visits
  simp only [forStep_zero blocksize Other nK _ (by decide) hK,
    forStep_zero blocksize Columns nC _ (by decide) hC,
    forStep_zero blocksize Rows nR _ (by decide) hR]
  have key := forRange_visits
    (fun ti (x : Nat × Nat × Nat) =>
      (blocksize * ti ≤ x.1 ∧ x.1 < blocksize * ti + blocksize) ∧
      x.2.1 < Columns ∧ x.2.2 < Other)
    (fun x => x.1 < Rows ∧ x.2.1 < Columns ∧ x.2.2 < Other) 0 nR
    (fun ti tr => forRange 0 nC (fun tj tr => forRange 0 nK (fun tk tr =>
      gemm_core_blocked.do_block_visits (blocksize * ti) (blocksize * tj) (blocksize * tk) tr)
      tr) tr) []
    (by
      intro ti tr1 _
      apply forRange_visits (fun tj (x : Nat × Nat × Nat) =>
        (blocksize * (0 + ti) ≤ x.1 ∧ x.1 < blocksize * (0 + ti) + blocksize) ∧
        (blocksize * tj ≤ x.2.1 ∧ x.2.1 < blocksize * tj + blocksize) ∧ x.2.2 < Other)
      · intro tj tr2 _
        apply forRange_visits (fun tk (x : Nat × Nat × Nat) =>
          (blocksize * (0 + ti) ≤ x.1 ∧ x.1 < blocksize * (0 + ti) + blocksize) ∧
          (blocksize * (0 + tj) ≤ x.2.1 ∧ x.2.1 < blocksize * (0 + tj) + blocksize) ∧
          (blocksize * tk ≤ x.2.2 ∧ x.2.2 < blocksize * tk + blocksize))
        · intro tk tr3 _
          exact do_block_visits_spec _ _ _ tr3
        · rintro t t' x hne ⟨_, _, h1, h2⟩ ⟨_, _, h3, h4⟩
          rw [hbs] at h1 h2 h3 h4
          omega
        · intro x
          rw [hK, hbs]
          constructor
          · rintro ⟨h1, h2, h3⟩
            exact ⟨x.2.2 / 32, by omega, by omega, h1, h2, by omega, by omega⟩
          · rintro ⟨t, h1, h2, h3, h4, h5, h6⟩
            exact ⟨h3, h4, by omega⟩
      · rintro t t' x hne ⟨_, ⟨h1, h2⟩, _⟩ ⟨_, ⟨h3, h4⟩, _⟩
        rw [hbs] at h1 h2 h3 h4
        omega
      · intro x
        rw [hC, hbs]
        constructor
        · rintro ⟨h1, h2, h3⟩
          rw [Nat.zero_add] at h1
          exact ⟨x.2.1 / 32, by omega, by omega, by rw [Nat.zero_add]; exact h1,
            ⟨by omega, by omega⟩, h3⟩
        · rintro ⟨t, h1, h2, h3, ⟨h4, h5⟩, h6⟩
          rw [Nat.zero_add] at h3
          exact ⟨by rw [Nat.zero_add]; exact h3, by omega, h6⟩)
    (by
      rintro t t' x hne ⟨⟨h1, h2⟩, _⟩ ⟨⟨h3, h4⟩, _⟩
      rw [hbs] at h1 h2 h3 h4
      omega)
    (by
      intro x
      rw [hR, hbs]
      constructor
      · rintro ⟨h1, h2, h3⟩
        exact ⟨x.1 / 32, by omega, by omega, ⟨by omega, by omega⟩, h2, h3⟩
      · rintro ⟨t, h1, h2, ⟨h3, h4⟩, h5, h6⟩
        exact ⟨by omega, h5, h6⟩)
  simpa using key

/-! ## The blocked multiply and its recorded triples -/

/-- A loop on a richer state whose every iteration projects onto the iteration of a second
loop projects onto that loop, failures included. -/
theorem forRange_map {σ τ : Type} (f : σ → τ) (lo n : Nat) (body2 : Nat → σ → Option σ)
    (body1 : Nat → τ → Option τ) (h : ∀ t s, (body2 t s).map f = body1 t (f s)) (s : σ) :
    (forRange lo n body2 s).map f = forRange lo n body1 (f s) := by
  induction n with
  | zero => rfl
  | succ n ih =>
    rw [forRange, forRange, ← ih]
    cases forRange lo n body2 s with
    | none => rfl
    | some s1 => exact h (lo + n) s1

theorem forStep_map {σ τ : Type} (f : σ → τ) (step stop : Nat)
    (body2 : Nat → σ → Option σ) (body1 : Nat → τ → Option τ) (h : ∀ t s, (body2 t s).map f = body1 t (f s)) :
    ∀ (fuel i : Nat) (s : σ),
      (forStep step stop body2 fuel i s).map f = forStep step stop body1 fuel i (f s) := by
  intro fuel
  induction fuel with
  | zero => intro i s; rfl
  | succ fuel ih =>
    intro i s
    rw [forStep, forStep]
    by_cases hlt : i < stop
    · rw [if_pos hlt, if_pos hlt, ← h i s]
      cases body2 i s with
      | none => rfl
      | some s1 => exact ih (i + step) s1
    · rw [if_neg hlt, if_neg hlt]; rfl

/-- A loop on a richer state whose every successful iteration projects onto a successful
iteration of a second loop projects, when it succeeds, onto that loop. -/
theorem forRange_proj {σ τ : Type} (g : σ → τ) (lo n : Nat) (body2 : Nat → σ → Option σ)
    (bodyV : Nat → τ → Option τ)
    (h : ∀ t s s', body2 t s = some s' → bodyV t (g s) = some (g s')) :
    ∀ s s', forRange lo n body2 s = some s' → forRange lo n bodyV (g s) = some (g s') := by
  induction n with
  | zero =>
    intro s s' hs
    rw [forRange] at hs
    cases hs; rfl
  | succ n ih =>
    intro s s' hs
    rw [forRange] at hs
    cases h1 : forRange lo n body2 s with
    | none => rw [h1] at hs; exact Option.noConfusion hs
    | some s1 =>
      rw [h1, Option.some_bind] at hs
      rw [forRange, ih s s1 h1, Option.some_bind]
      exact h _ _ _ hs

theorem forStep_proj {σ τ : Type} (g : σ → τ) (step stop : Nat)
    (body2 : Nat → σ → Option σ) (bodyV : Nat → τ → Option τ)
    (h : ∀ t s s', body2 t s = some s' → bodyV t (g s) = some (g s')) :
    ∀ (fuel i : Nat) (s s' : σ), forStep step stop body2 fuel i s = some s' →
      forStep step stop bodyV fuel i (g s) = some (g s') := by
  intro fuel
  induction fuel with
  | zero =>
    intro i s s' hs
    rw [forStep] at hs
    exact Option.noConfusion hs
  | succ fuel ih =>
    intro i s s' hs
    rw [forStep] at hs
    rw [forStep]
    by_cases hlt : i < stop
    · rw [if_pos hlt] at hs
      rw [if_pos hlt]
      cases h1 : body2 i s with
      | none => rw [h1] at hs; exact Option.noConfusion hs
      | some s1 =>
        rw [h1, Option.some_bind] at hs
        rw [h _ _ _ h1, Option.some_bind]
        exact ih _ _ _ hs
    · rw [if_neg hlt] at hs
      rw [if_neg hlt]
      cases hs; rfl

/-- Forgetting the recorded triples, `do_block_traced` is `do_block`, on every input. -/
theorem do_block_traced_fst (T : IntType) (Columns Other si sj sk : Nat) (a b : Buf)
    (s : Buf × List (Nat × Nat × Nat)) :
    (gemm_core_blocked.do_block_traced T Columns Other si sj sk a b s).map Prod.fst
      = gemm_core_blocked.do_block T Columns Other si sj sk a b s.1 := by
  unfold gemm_core_blocked.do_block_traced gemm_core_blocked.do_block
  apply forRange_map
  intro i s1
  apply forRange_map
  intro j s2
  have hk := forRange_map (Prod.fst : Int × List (Nat × Nat × Nat) → Int) sk
    (sk + blocksize - sk)
    (fun k r => do
      let x ← load a (i * Other + k)
      let y ← load b (k * Columns + j)
      pure (T.wrap (r.1 + x * y), r.2 ++ [(i, j, k)]))
    (fun k cij => do
      let x ← load a (i * Other + k)
      let y ← load b (k * Columns + j)
      pure (T.wrap (cij + x * y)))
    (by
      intro k r
      dsimp only
      cases load a (i * Other + k) <;> cases load b (k * Columns + j) <;> rfl)
  cases hl : load s2.1 (i * Columns + j) with
  | none => simp only [bind, hl, Option.none_bind, Option.map_none']
  | some cij =>
    have hk' := hk (cij, s2.2)
    simp only [bind, hl, Option.some_bind] at hk' ⊢
    rw [← hk']
    cases forRange sk (sk + blocksize - sk) (fun k r =>
        (load a (i * Other + k)).bind fun x =>
          (load b (k * Columns + j)).bind fun y =>
            pure (T.wrap (r.1 + x * y), r.2 ++ [(i, j, k)])) (cij, s2.2) with
    | none => rfl
    | some r =>
      simp only [Option.some_bind, Option.map_some']
      cases store s2.1 (i * Columns + j) r.1 <;> rfl

/-- The triples recorded by `do_block_traced` are those of `do_block_visits`. -/
theorem do_block_traced_snd (T : IntType) (Columns Other si sj sk : Nat) (a b : Buf)
    (s s' : Buf × List (Nat × Nat × Nat))
    (h : gemm_core_blocked.do_block_traced T Columns Other si sj sk a b s = some s') :
    gemm_core_blocked.do_block_visits si sj sk s.2 = some s'.2 := by
  unfold gemm_core_blocked.do_block_traced at h
  unfold gemm_core_blocked.do_block_visits
  revert h
  apply forRange_proj
  intro i s1 s1'
  apply forRange_proj
  intro j s2 s2' h2
  cases hl : load s2.1 (i * Columns + j) with
  | none =>
    simp only [bind, hl, Option.none_bind] at h2
    exact Option.noConfusion h2
  | some cij =>
    simp only [bind, hl, Option.some_bind] at h2
    cases hr : forRange sk (sk + blocksize - sk) (fun k r =>
        (load a (i * Other + k)).bind fun x =>
          (load b (k * Columns + j)).bind fun y =>
            pure (T.wrap (r.1 + x * y), r.2 ++ [(i, j, k)])) (cij, s2.2) with
    | none =>
      rw [hr] at h2
      exact Option.noConfusion h2
    | some r =>
      rw [hr, Option.some_bind] at h2
      have hv := forRange_proj (Prod.snd : Int × List (Nat × Nat × Nat) → _) sk
        (sk + blocksize - sk) _ (fun k tr => some (tr ++ [(i, j, k)]))
        (by
          intro k r1 r1' hstep
          cases hx : load a (i * Other + k) with
          | none => rw [hx] at hstep; exact Option.noConfusion hstep
          | some x =>
            cases hy : load b (k * Columns + j) with
            | none => rw [hx, hy] at hstep; exact Option.noConfusion hstep
            | some y =>
              rw [hx, hy] at hstep
              cases hstep; rfl)
        _ _ hr
      cases hst : store s2.1 (i * Columns + j) r.1 with
      | none => rw [hst] at h2; exact Option.noConfusion h2
      | some c' =>
        rw [hst] at h2
        cases h2
        exact hv

/-- Forgetting the recorded triples, `mult_traced` is the blocked `mult`, on every input. -/
theorem mult_traced_fst (T : IntType) (Rows Columns Other : Nat) (a b m : Buf) :
    (gemm_core_blocked.mult_traced T Rows Columns Other a b m).map Prod.fst
      = gemm_core_blocked.mult T Rows Columns Other a b m := by
  unfold gemm_core_blocked.mult_traced gemm_core_blocked.mult
  apply forStep_map Prod.fst
  intro si s1
  apply forStep_map Prod.fst
  intro sj s2
  apply forStep_map Prod.fst
  intro sk s3
  exact do_block_traced_fst T Columns Other si sj sk a b s3

/-- The triples recorded by `mult_traced` are those of `mult_visits`. -/
theorem mult_traced_snd (T : IntType) (Rows Columns Other : Nat) (a b m : Buf)
    (s' : Buf × List (Nat × Nat × Nat))
    (h : gemm_core_blocked.mult_traced T Rows Columns Other a b m = some s') :
    gemm_core_blocked.mult_visits Rows Columns Other = some s'.2 := by
  unfold gemm_core_blocked.mult_traced at h
  unfold gemm_core_blocked.mult_visits
  revert h
  apply forStep_proj Prod.snd
  intro si s1 s1'
  apply forStep_proj Prod.snd
  intro sj s2 s2'
  apply forStep_proj Prod.snd
  intro sk s3 s3'
  exact do_block_traced_snd T Columns Other si sj sk a b s3 s3'

/-! ## The blocked multiply as a replay of its recorded triples -/

theorem replay_snoc (T : IntType) (Columns Other : Nat) (a b : Buf)
    (tr : List (Nat × Nat × Nat)) (x : Nat × Nat × Nat) (m : Buf) :
    replay T Columns Other a b (tr ++ [x]) m
      = (replay T Columns Other a b tr m).bind (fun m' => mac T Columns Other a b m' x) := by
  induction tr generalizing m with
  | nil =>
    cases h : mac T Columns Other a b m x <;> simp [replay, h]
  | cons y tr ih =>
    simp only [List.cons_append, replay]
    cases mac T Columns Other a b m y with
    | none => rfl
    | some m1 => exact ih m1

/-- A property kept by every successful iteration is kept by a loop that succeeds. -/
theorem forRange_pres {σ : Type} (Inv : σ → Prop) (lo n : Nat) (body : Nat → σ → Option σ)
    (h : ∀ t s s', Inv s → body t s = some s' → Inv s') :
    ∀ s s', Inv s → forRange lo n body s = some s' → Inv s' := by
  induction n with
  | zero =>
    intro s s' hi hs
    rw [forRange] at hs
    cases hs; exact hi
  | succ n ih =>
    intro s s' hi hs
    rw [forRange] at hs
    cases h1 : forRange lo n body s with
    | none => rw [h1] at hs; exact Option.noConfusion hs
    | some s1 =>
      rw [h1, Option.some_bind] at hs
      exact h _ _ _ (ih s s1 hi h1) hs

theorem forStep_pres {σ : Type} (Inv : σ → Prop) (step stop : Nat)
    (body : Nat → σ → Option σ) (h : ∀ t s s', Inv s → body t s = some s' → Inv s') :
    ∀ (fuel i : Nat) (s s' : σ), Inv s → forStep step stop body fuel i s = some s' →
      Inv s' := by
  intro fuel
  induction fuel with
  | zero =>
    intro i s s' _ hs
    rw [forStep] at hs
    exact Option.noConfusion hs
  | succ fuel ih =>
    intro i s s' hi hs
    rw [forStep] at hs
    by_cases hlt : i < stop
    · rw [if_pos hlt] at hs
      cases h1 : body i s with
      | none => rw [h1] at hs; exact Option.noConfusion hs
      | some s1 =>
        rw [h1, Option.some_bind] at hs
        exact ih _ _ _ (h _ _ _ hi h1) hs
    · rw [if_neg hlt] at hs
      cases hs; exact hi

/-- Through `do_block_traced` the buffer stays the replay of the recorded triples. -/
theorem do_block_traced_replay (T : IntType) (Columns Other si sj sk : Nat) (a b m0 : Buf)
    (s s' : Buf × List (Nat × Nat × Nat))
    (hinv : replay T Columns Other a b s.2 m0 = some s.1)
    (h : gemm_core_blocked.do_block_traced T Columns Other si sj sk a b s = some s') :
    replay T Columns Other a b s'.2 m0 = some s'.1 := by
  unfold gemm_core_blocked.do_block_traced at h
  refine forRange_pres
    (fun s : Buf × List (Nat × Nat × Nat) => replay T Columns Other a b s.2 m0 = some s.1)
    _ _ _ ?_ s s' hinv h
  intro i s1 s1' hinv1 h1
  refine forRange_pres
    (fun s : Buf × List (Nat × Nat × Nat) => replay T Columns Other a b s.2 m0 = some s.1)
    _ _ _ ?_ s1 s1' hinv1 h1
  intro j s2 s2' hinv2 h2
  cases hl : load s2.1 (i * Columns + j) with
  | none =>
    simp only [bind, hl, Option.none_bind] at h2
    exact Option.noConfusion h2
  | some cij =>
    simp only [bind, hl, Option.some_bind] at h2
    have hcur : s2.1[i * Columns + j]? = some cij := hl
    obtain ⟨hlt, _⟩ := List.getElem?_eq_some_iff.1 hcur
    have hsame : s2.1.set (i * Columns + j) cij = s2.1 := by
      have h := store_same s2.1 _ _ hcur
      rw [store, if_pos hlt] at h
      exact Option.some.inj h
    cases hr : forRange sk (sk + blocksize - sk) (fun k r =>
        (load a (i * Other + k)).bind fun x =>
          (load b (k * Columns + j)).bind fun y =>
            pure (T.wrap (r.1 + x * y), r.2 ++ [(i, j, k)])) (cij, s2.2) with
    | none =>
      rw [hr] at h2
      exact Option.noConfusion h2
    | some r =>
      rw [hr, Option.some_bind] at h2
      have hk := forRange_pres
        (fun r : Int × List (Nat × Nat × Nat) =>
          replay T Columns Other a b r.2 m0 = some (s2.1.set (i * Columns + j) r.1))
        sk (sk + blocksize - sk) _
        (by
          intro k r1 r1' hr1 hstep
          cases hx : load a (i * Other + k) with
          | none => rw [hx] at hstep; exact Option.noConfusion hstep
          | some x =>
            cases hy : load b (k * Columns + j) with
            | none => rw [hx, hy] at hstep; exact Option.noConfusion hstep
            | some y =>
              rw [hx, hy] at hstep
              cases hstep
              have hlt' : i * Columns + j < (s2.1.set (i * Columns + j) r1.1).length := by
                rw [List.length_set]; exact hlt
              have hld : load (s2.1.set (i * Columns + j) r1.1) (i * Columns + j)
                  = some r1.1 := by
                rw [load, List.getElem?_set_self hlt]
              show replay T Columns Other a b (r1.2 ++ [(i, j, k)]) m0 = _
              rw [replay_snoc, hr1, Option.some_bind]
              simp only [mac, bind, hld, hx, hy, Option.some_bind, store, if_pos hlt',
                List.set_set])
        (cij, s2.2) r (by show _ = some (s2.1.set (i * Columns + j) cij); rw [hsame]; exact hinv2)
        hr
      cases hst : store s2.1 (i * Columns + j) r.1 with
      | none => rw [hst] at h2; exact Option.noConfusion h2
      | some c' =>
        rw [hst] at h2
        cases h2
        rw [store, if_pos hlt] at hst
        rw [← Option.some.inj hst]
        exact hk

/-- The buffer returned by `mult_traced` is the replay of the triples it recorded. -/
theorem mult_traced_replay (T : IntType) (Rows Columns Other : Nat) (a b m : Buf)
    (s' : Buf × List (Nat × Nat × Nat))
    (h : gemm_core_blocked.mult_traced T Rows Columns Other a b m = some s') :
    replay T Columns Other a b s'.2 m = some s'.1 := by
  unfold gemm_core_blocked.mult_traced at h
  refine forStep_pres
    (fun s : Buf × List (Nat × Nat × Nat) => replay T Columns Other a b s.2 m = some s.1)
    _ _ _ ?_ _ _ (m, []) s' rfl h
  intro si s1 s1' hinv1 h1
  refine forStep_pres
    (fun s : Buf × List (Nat × Nat × Nat) => replay T Columns Other a b s.2 m = some s.1)
    _ _ _ ?_ _ _ s1 s1' hinv1 h1
  intro sj s2 s2' hinv2 h2
  refine forStep_pres
    (fun s : Buf × List (Nat × Nat × Nat) => replay T Columns Other a b s.2 m = some s.1)
    _ _ _ ?_ _ _ s2 s2' hinv2 h2
  intro sk s3 s3' hinv h3
  exact do_block_traced_replay T Columns Other si sj sk a b m s3 s3' hinv h3

/-! ## Applying transpose twice -/

/-- For unequal dimensions with at least 2 columns, applying the transpose twice to the
matrix holding `0, 1, 2, ...` does not return it: a read falls outside the buffer when
`Rows < Columns`, and the result differs from the input when `Columns < Rows`. -/
theorem transpose_twice_differs (Rows Columns : Nat) (hne : Rows ≠ Columns)
    (hR : 1 ≤ Rows) (hC : 2 ≤ Columns) :
    ∃ a : Buf, a.length = Rows * Columns ∧
      ∀ t r : Buf, t.length = Rows * Columns → r.length = Rows * Columns →
        (gemm_core.transpose Rows Columns a t).bind
          (fun t' => gemm_core.transpose Rows Columns t' r) ≠ some a := by
  refine ⟨iota (Rows * Columns), iota_length _, ?_⟩
  intro t r ht hr
  have hlen : (iota (Rows * Columns)).length = Rows * Columns := iota_length _
  rcases Nat.lt_or_gt_of_ne hne with hlt | hgt
  · -- a read of the first pass is outside the buffer
    have hfail : gemm_core.transpose Rows Columns
        (iota (Rows * Columns)) t = none := by
      unfold gemm_core.transpose
      apply forRange_none 0 Rows _ t (Rows - 1) (by omega)
      intro s1
      apply forRange_none 0 Columns _ s1 (Columns - 1) (by omega)
      intro s2
      have hge : Rows * Columns ≤ (0 + (Columns - 1)) * Columns + (0 + (Rows - 1)) := by
        have : Rows * Columns ≤ (Columns - 1) * Columns :=
          Nat.mul_le_mul_right Columns (by omega)
        rw [Nat.zero_add, Nat.zero_add]
        omega
      have hnone : load (iota (Rows * Columns))
          ((0 + (Columns - 1)) * Columns + (0 + (Rows - 1))) = none := by
        rw [load, List.getElem?_eq_none (by rw [hlen]; exact hge)]
      simp only [bind, hnone, Option.none_bind]
    rw [hfail]
    simp
  · -- both passes stay inside the buffers and the result differs at row `Columns`
    have hidx : ∀ i j, i < Rows → j < Columns → j * Columns + i < Rows * Columns := by
      intro i j hi hj
      have h1 : j * Columns ≤ j * Rows := Nat.mul_le_mul_left j (by omega)
      have h2 := idx_lt (R := Columns) (C := Rows) (i := j) (j := i) hj hi
      rw [Nat.mul_comm Columns Rows] at h2
      omega
    obtain ⟨t', ht', hupd⟩ := transpose_spec Rows Columns
      (iota (Rows * Columns)) t
      (fun i j hi hj => by rw [hlen]; exact hidx i j hi hj) ht
    have hlen' : t'.length = Rows * Columns := by rw [hupd.1, ht]
    obtain ⟨r', hr', hupd'⟩ := transpose_spec Rows Columns t' r
      (fun i j hi hj => by rw [hlen']; exact hidx i j hi hj) hr
    rw [ht', Option.some_bind, hr']
    intro heq
    have heq' : r' = iota (Rows * Columns) :=
      Option.some.inj heq
    have hCC : Columns * Columns + 0 < Rows * Columns := by
      have := Nat.mul_lt_mul_of_pos_right hgt (show 0 < Columns by omega)
      omega
    have h1 := hupd'.getElem (i := Columns) (j := 0) (by omega) (by rw [hr]; exact hCC)
      ⟨hgt, by omega⟩
    have h2 := hupd.getElem (i := 1) (j := 0) (by omega)
      (by rw [ht]; exact idx_lt (by omega) (by omega)) ⟨by omega, by omega⟩
    have h3 : get Columns t' 0 Columns
        = get Columns (iota (Rows * Columns)) 0 1 := by
      apply get_eq_of_load
      have : 0 * Columns + Columns = 1 * Columns + 0 := by omega
      rw [this]
      exact h2
    have h4 : get Columns (iota (Rows * Columns)) 0 1
        = ((0 * Columns + 1 : Nat) : Int) :=
      get_eq_of_load (iota_getElem _ _ (by
        have := idx_lt (R := Rows) (C := Columns) (i := 0) (j := 1) (by omega) (by omega)
        exact this))
    rw [heq', iota_getElem _ _ hCC, h3, h4] at h1
    have h5 : Columns * Columns + 0 = 0 * Columns + 1 := by exact_mod_cast Option.some.inj h1
    have h6 : 2 * Columns ≤ Columns * Columns := Nat.mul_le_mul_right Columns hC
    omega

/-- With one column the transpose kernel copies its input: the read index `j * 1 + i` and the
write index `i * 1 + j` are both `i`. -/
theorem transpose_columns_one (Rows : Nat) (a m : Buf) (ha : a.length = Rows * 1)
    (hm : m.length = Rows * 1) : gemm_core.transpose Rows 1 a m = some a := by
  obtain ⟨m', hm', hupd⟩ := transpose_spec Rows 1 a m
    (fun i j hi hj => by rw [ha]; omega) hm
  rw [hm']
  congr 1
  apply hupd.full_eq hm ha
  intro i j hi hj
  have hj0 : j = 0 := by omega
  subst hj0
  simp [get]

/-! # The properties -/

/-- C1: reference multiply accumulates. For `a` of `Rows * Other` elements, `b` of
`Other * Columns` elements and `c` of `Rows * Columns` elements of the element type, the
call returns, the result has the size of `c`, and its entry `(i, j)` is
`C[i][j] + Σ_{k < Other} A[i][k] * B[k][j]` reduced into the element type. The operands `a`
and `b` are read-only arguments of the kernel (pointers to const in the source): only the
buffer `c` is part of the result. -/
theorem mult_accumulates (T : IntType) (Rows Columns Other : Nat) (a b c : Buf)
    (ha : a.length = Rows * Other) (hb : b.length = Other * Columns)
    (hc : c.length = Rows * Columns) (hr : ∀ x ∈ c, T.InRange x) :
    ∃ c', gemm_core.mult T Rows Columns Other a b c = some c' ∧ c'.length = Rows * Columns ∧
      ∀ i j, i < Rows → j < Columns →
        c'[i * Columns + j]? = some (T.wrap (get Columns c i j
          + ∑ k in Finset.range Other, get Other a i k * get Columns b k j)) := by
  obtain ⟨c', hc', hupd⟩ := mult_spec T Rows Columns Other a b c (by omega) (by omega) hc
  refine ⟨c', hc', by rw [hupd.1, hc], fun i j hi hj => ?_⟩
  have hlt : i * Columns + j < c.length := by rw [hc]; exact idx_lt hi hj
  rw [hupd.getElem hj hlt ⟨hi, hj⟩]
  congr 1
  apply macc_sum
  apply hr
  have hv : List.get? c (i * Columns + j) = some (c.get ⟨i * Columns + j, hlt⟩) :=
    List.get?_eq_get hlt
  rw [get, List.getD, hv]
  exact List.get_mem _ _ _

/-- The scenario of C1: `A = [[1,2],[3,4]]`, `B = [[5,6],[7,8]]` and `C` all zeros give
`C = [[19,22],[43,50]]`. -/
theorem mult_accumulates_witness :
    gemm_core.mult int32 2 2 2 [1, 2, 3, 4] [5, 6, 7, 8] [0, 0, 0, 0] = some [19, 22, 43, 50] ∧
    ∃ c', gemm_core.mult int32 2 2 2 [1, 2, 3, 4] [5, 6, 7, 8] [0, 0, 0, 0] = some c' ∧
      c'.length = 2 * 2 ∧
      ∀ i j, i < 2 → j < 2 →
        c'[i * 2 + j]? = some (int32.wrap (get 2 [0, 0, 0, 0] i j
          + ∑ k in Finset.range 2, get 2 [1, 2, 3, 4] i k * get 2 [5, 6, 7, 8] k j)) :=
  ⟨by decide, mult_accumulates int32 2 2 2 [1, 2, 3, 4] [5, 6, 7, 8] [0, 0, 0, 0]
    (by decide) (by decide) (by decide) (by decide)⟩

/-- C3: blocked multiply equals reference multiply bit for bit. For `Rows`, `Columns` and
`Other` multiples of the block size 32, any integer element type and any `a`, `b`, `c` of
the sizes the dimensions declare, both kernels return and the buffer produced by the blocked
kernel is the buffer produced by the reference kernel. -/
theorem blocked_eq_reference (T : IntType) (Rows Columns Other : Nat) (a b c : Buf)
    (hR : Rows % blocksize = 0) (hC : Columns % blocksize = 0) (hK : Other % blocksize = 0)
    (ha : a.length = Rows * Other) (hb : b.length = Other * Columns)
    (hc : c.length = Rows * Columns) :
    ∃ c', gemm_core_blocked.mult T Rows Columns Other a b c = some c' ∧
      gemm_core.mult T Rows Columns Other a b c = some c' := by
  obtain ⟨c1, h1, hupd1⟩ := mult_spec T Rows Columns Other a b c (by omega) (by omega) hc
  obtain ⟨c2, h2, hupd2⟩ := mult_blocked_spec T Rows Columns Other
    (Rows / blocksize) (Columns / blocksize) (Other / blocksize) a b c
    (Nat.eq_mul_of_div_eq_right (Nat.dvd_of_mod_eq_zero hR) rfl)
    (Nat.eq_mul_of_div_eq_right (Nat.dvd_of_mod_eq_zero hC) rfl)
    (Nat.eq_mul_of_div_eq_right (Nat.dvd_of_mod_eq_zero hK) rfl)
    (by omega) (by omega) hc
  exact ⟨c2, h2, by rw [h1, Upd.ext hc hupd1 hupd2]⟩

/-- C3 at a 32 x 32 by 32 x 32 product of `int8_t` matrices whose sums overflow 8 bits. -/
theorem blocked_eq_reference_witness :
    ∃ c', gemm_core_blocked.mult int8 32 32 32 (List.replicate 1024 100)
        (List.replicate 1024 (-77)) (List.replicate 1024 5) = some c' ∧
      gemm_core.mult int8 32 32 32 (List.replicate 1024 100)
        (List.replicate 1024 (-77)) (List.replicate 1024 5) = some c' :=
  blocked_eq_reference int8 32 32 32 (List.replicate 1024 100) (List.replicate 1024 (-77))
    (List.replicate 1024 5) (by decide) (by decide) (by decide)
    (List.length_replicate _ _) (List.length_replicate _ _) (List.length_replicate _ _)

/-- C5: the branchless selector contract. On a machine with `W`-bit addresses and for any two
operand addresses, the mask `compare - 1` is all-zero bits for flag 1 and all-one bits for
flag 0; the blended address is the address of `a` for flag 1 and the address of `b` for
flag 0, so the call returns the object `a`, respectively `b`. -/
theorem branchless_select_contract (W : Nat) (mem : Nat → Option Int) (ptr_a ptr_b : Nat)
    (ha : ptr_a < 2 ^ W) (hb : ptr_b < 2 ^ W) :
    (((1 : Int) - 1) % 2 ^ W).toNat = 0 ∧ (((0 : Int) - 1) % 2 ^ W).toNat = 2 ^ W - 1 ∧
    branchless_select_ptr W 1 ptr_a ptr_b = ptr_a ∧
    branchless_select_ptr W 0 ptr_a ptr_b = ptr_b ∧
    branchless_select W mem 1 ptr_a ptr_b = mem ptr_a ∧
    branchless_select W mem 0 ptr_a ptr_b = mem ptr_b := by
  have h1 : branchless_select_ptr W 1 ptr_a ptr_b = ptr_a := by
    rw [branchless_select_ptr, mask_of_one, Nat.zero_and, Nat.zero_xor]
  have h0 : branchless_select_ptr W 0 ptr_a ptr_b = ptr_b := by
    rw [branchless_select_ptr, mask_of_zero, Nat.land_comm,
      Nat.and_pow_two_sub_one_of_lt_two_pow (Nat.xor_lt_two_pow hb ha), Nat.xor_assoc,
      Nat.xor_self, Nat.xor_zero]
  exact ⟨mask_of_one W, mask_of_zero W, h1, h0, by rw [branchless_select, h1],
    by rw [branchless_select, h0]⟩

/-- C5 on a 32-bit machine, two objects 4 bytes apart holding 7 and 9. -/
theorem branchless_select_contract_witness :
    (0x20000000 < 2 ^ 32 ∧ 0x20000004 < 2 ^ 32) ∧
    branchless_select_ptr 32 1 0x20000000 0x20000004 = 0x20000000 ∧
    branchless_select_ptr 32 0 0x20000000 0x20000004 = 0x20000004 ∧
    branchless_select 32 (fun p => if p = 0x20000000 then some 7 else
      if p = 0x20000004 then some 9 else none) 1 0x20000000 0x20000004 = some 7 ∧
    branchless_select 32 (fun p => if p = 0x20000000 then some 7 else
      if p = 0x20000004 then some 9 else none) 0 0x20000000 0x20000004 = some 9 :=
  have h := branchless_select_contract 32 (fun p => if p = 0x20000000 then some 7 else
      if p = 0x20000004 then some 9 else none) 0x20000000 0x20000004 (by decide) (by decide)
  ⟨⟨by decide, by decide⟩, h.2.2.1, h.2.2.2.1, h.2.2.2.2.1.trans (by decide),
    h.2.2.2.2.2.trans (by decide)⟩

/-- C6: add/sub round trip. For any integer element type and `a`, `b` of `Rows * Columns`
elements of that type, `add(a, b, t)` returns some `t'` and `sub(t', b, r)` then returns `a`,
element for element, whatever the scratch buffers `t` and `r` held. -/
theorem add_sub_roundtrip (T : IntType) (Rows Columns : Nat) (a b t r : Buf)
    (ha : a.length = Rows * Columns) (hb : b.length = Rows * Columns)
    (ht : t.length = Rows * Columns) (hr : r.length = Rows * Columns)
    (hin : ∀ x ∈ a, T.InRange x) :
    ∃ t', gemm_core.add T Rows Columns a b t = some t' ∧
      gemm_core.sub T Rows Columns t' b r = some a := by
  obtain ⟨t', ht', hupd⟩ := add_spec T Rows Columns a b t (by omega) (by omega) ht
  have hlen : t'.length = Rows * Columns := by rw [hupd.1, ht]
  obtain ⟨r', hr', hupd'⟩ := sub_spec T Rows Columns t' b r (by omega) (by omega) hr
  refine ⟨t', ht', ?_⟩
  rw [hr']
  congr 1
  apply hupd'.full_eq hr ha
  intro i j hi hj
  have hlt : i * Columns + j < Rows * Columns := idx_lt hi hj
  have ht'v := hupd.getElem hj (by rw [ht]; exact hlt) ⟨hi, hj⟩
  rw [get_eq_of_load ht'v]
  have hmem : get Columns a i j ∈ a := by
    have hv : List.get? a (i * Columns + j) = some (a.get ⟨i * Columns + j, by omega⟩) :=
      List.get?_eq_get (by omega)
    rw [get, List.getD, hv]
    exact List.get_mem _ _ _
  have h1 : T.wrap (T.wrap (get Columns a i j + get Columns b i j) - get Columns b i j)
      = T.wrap (get Columns a i j) := by
    rw [sub_eq_add_neg, wrap_add_wrap]
    congr 1
    ring
  rw [h1]
  exact hin _ hmem

/-- C6 on 2 x 2 `int8_t` matrices whose sums overflow 8 bits. -/
theorem add_sub_roundtrip_witness :
    ∃ t', gemm_core.add int8 2 2 [100, -100, 127, -128] [100, -100, 1, -1] [0, 0, 0, 0]
        = some t' ∧
      gemm_core.sub int8 2 2 t' [100, -100, 1, -1] [9, 9, 9, 9]
        = some [100, -100, 127, -128] :=
  add_sub_roundtrip int8 2 2 [100, -100, 127, -128] [100, -100, 1, -1] [0, 0, 0, 0]
    [9, 9, 9, 9] (by decide) (by decide) (by decide) (by decide) (by decide)

/-- C7: add is elementwise addition. For `a`, `b` and `c` of `Rows * Columns` elements the
call returns, the result has the size of `c`, and its entry `(i, j)` is `A[i][j] + B[i][j]`
reduced into the element type, whatever `c` held. The operands `a` and `b` are read-only
arguments of the kernel (pointers to const in the source): only the buffer `c` is part of the
result. -/
theorem add_elementwise (T : IntType) (Rows Columns : Nat) (a b c : Buf)
    (ha : a.length = Rows * Columns) (hb : b.length = Rows * Columns)
    (hc : c.length = Rows * Columns) :
    ∃ c', gemm_core.add T Rows Columns a b c = some c' ∧ c'.length = Rows * Columns ∧
      ∀ i j, i < Rows → j < Columns →
        c'[i * Columns + j]? = some (T.wrap (get Columns a i j + get Columns b i j)) := by
  obtain ⟨c', hc', hupd⟩ := add_spec T Rows Columns a b c (by omega) (by omega) hc
  refine ⟨c', hc', by rw [hupd.1, hc], fun i j hi hj => ?_⟩
  exact hupd.getElem hj (by rw [hc]; exact idx_lt hi hj) ⟨hi, hj⟩

/-- C7 on 2 x 3 `uint8_t` matrices, one sum overflowing 8 bits. -/
theorem add_elementwise_witness :
    gemm_core.add uint8 2 3 [1, 2, 3, 4, 5, 250] [10, 20, 30, 40, 50, 60] [7, 7, 7, 7, 7, 7]
      = some [11, 22, 33, 44, 55, 54] ∧
    ∃ c', gemm_core.add uint8 2 3 [1, 2, 3, 4, 5, 250] [10, 20, 30, 40, 50, 60]
        [7, 7, 7, 7, 7, 7] = some c' ∧ c'.length = 2 * 3 ∧
      ∀ i j, i < 2 → j < 3 →
        c'[i * 3 + j]? = some (uint8.wrap (get 3 [1, 2, 3, 4, 5, 250] i j
          + get 3 [10, 20, 30, 40, 50, 60] i j)) :=
  ⟨by decide, add_elementwise uint8 2 3 [1, 2, 3, 4, 5, 250] [10, 20, 30, 40, 50, 60]
    [7, 7, 7, 7, 7, 7] (by decide) (by decide) (by decide)⟩

/-- C8: transpose on square matrices is the mathematical transpose. For `N = Rows = Columns`
and `a`, `c` of `N * N` elements the call returns, the result has the size of `c`, and
`C[i][j] = A[j][i]`, that is `c'[i * N + j] = a[j * N + i]`, for all `i, j < N`. -/
theorem transpose_square (N : Nat) (a c : Buf) (ha : a.length = N * N)
    (hc : c.length = N * N) :
    ∃ c', gemm_core.transpose N N a c = some c' ∧ c'.length = N * N ∧
      ∀ i j, i < N → j < N → c'[i * N + j]? = some (get N a j i) ∧
        a[j * N + i]? = some (get N a j i) := by
  have hidx : ∀ i j, i < N → j < N → j * N + i < a.length := fun i j hi hj => by
    rw [ha]; exact idx_lt hj hi
  obtain ⟨c', hc', hupd⟩ := transpose_spec N N a c hidx hc
  refine ⟨c', hc', by rw [hupd.1, hc], fun i j hi hj => ⟨?_, ?_⟩⟩
  · exact hupd.getElem hj (by rw [hc]; exact idx_lt hi hj) ⟨hi, hj⟩
  · have h := load_eq_get (hidx i j hi hj)
    rwa [load] at h

/-- C8 on a 3 x 3 matrix. -/
theorem transpose_square_witness :
    gemm_core.transpose 3 3 [1, 2, 3, 4, 5, 6, 7, 8, 9] [0, 0, 0, 0, 0, 0, 0, 0, 0]
      = some [1, 4, 7, 2, 5, 8, 3, 6, 9] ∧
    ∃ c', gemm_core.transpose 3 3 [1, 2, 3, 4, 5, 6, 7, 8, 9] [0, 0, 0, 0, 0, 0, 0, 0, 0]
        = some c' ∧ c'.length = 3 * 3 ∧
      ∀ i j, i < 3 → j < 3 →
        c'[i * 3 + j]? = some (get 3 [1, 2, 3, 4, 5, 6, 7, 8, 9] j i) ∧
        ([1, 2, 3, 4, 5, 6, 7, 8, 9] : Buf)[j * 3 + i]?
          = some (get 3 [1, 2, 3, 4, 5, 6, 7, 8, 9] j i) :=
  ⟨by decide, transpose_square 3 [1, 2, 3, 4, 5, 6, 7, 8, 9] [0, 0, 0, 0, 0, 0, 0, 0, 0]
    (by decide) (by decide)⟩

/-- C9: transpose is an involution on square matrices. For `Rows = Columns = N` and `a` of
`N * N` elements, transposing `a` into `t` returns some `t'` and transposing `t'` into `r`
with the same kernel returns `a`, element for element. -/
theorem transpose_involution (N : Nat) (a t r : Buf) (ha : a.length = N * N)
    (ht : t.length = N * N) (hr : r.length = N * N) :
    ∃ t', gemm_core.transpose N N a t = some t' ∧
      gemm_core.transpose N N t' r = some a := by
  obtain ⟨t', ht', hupd⟩ := transpose_spec N N a t
    (fun i j hi hj => by rw [ha]; exact idx_lt hj hi) ht
  have hlen : t'.length = N * N := by rw [hupd.1, ht]
  obtain ⟨r', hr', hupd'⟩ := transpose_spec N N t' r
    (fun i j hi hj => by rw [hlen]; exact idx_lt hj hi) hr
  refine ⟨t', ht', ?_⟩
  rw [hr']
  congr 1
  apply hupd'.full_eq hr ha
  intro i j hi hj
  exact get_eq_of_load (hupd.getElem hi (by rw [ht]; exact idx_lt hj hi) ⟨hj, hi⟩)

/-- C9 on a 3 x 3 matrix. -/
theorem transpose_involution_witness :
    ∃ t', gemm_core.transpose 3 3 [1, 2, 3, 4, 5, 6, 7, 8, 9] [0, 0, 0, 0, 0, 0, 0, 0, 0]
        = some t' ∧
      gemm_core.transpose 3 3 t' [5, 5, 5, 5, 5, 5, 5, 5, 5]
        = some [1, 2, 3, 4, 5, 6, 7, 8, 9] :=
  transpose_involution 3 [1, 2, 3, 4, 5, 6, 7, 8, 9] [0, 0, 0, 0, 0, 0, 0, 0, 0]
    [5, 5, 5, 5, 5, 5, 5, 5, 5] (by decide) (by decide) (by decide)

/-- C10 as stated fails: with `Rows = 2` and `Columns = 1` (unequal, both at least 1) the
transpose kernel copies its input, so applying it twice returns `a` for every `a`, with
every read inside the buffer. -/
theorem transpose_twice_two_by_one :
    ((2 : Nat) ≠ 1 ∧ 1 ≤ 2 ∧ 1 ≤ 1) ∧
    ∀ a t r : Buf, a.length = 2 * 1 → t.length = 2 * 1 → r.length = 2 * 1 →
      (gemm_core.transpose 2 1 a t).bind (fun t' => gemm_core.transpose 2 1 t' r) = some a := by
  refine ⟨by decide, ?_⟩
  intro a t r ha ht hr
  match a, t, r, ha, ht, hr with
  | [_, _], [_, _], [_, _], _, _, _ => rfl

/-- C10, amended: for unequal dimensions, both at least 1. When `Columns` is at least 2 there
is a `Rows * Columns` matrix, the one holding `0, 1, 2, ...`, for which applying the
`Rows x Columns` transpose twice does not return it: a read falls outside the buffer when
`Rows < Columns`, and the result differs from the input when `Columns < Rows`. When
`Columns = 1` the kernel copies its input, so applying it twice returns `a` for every `a`
and every `Rows`. -/
theorem transpose_twice_nonsquare (Rows Columns : Nat) (hne : Rows ≠ Columns)
    (hR : 1 ≤ Rows) (hC : 1 ≤ Columns) :
    (2 ≤ Columns → ∃ a : Buf, a.length = Rows * Columns ∧
      ∀ t r : Buf, t.length = Rows * Columns → r.length = Rows * Columns →
        (gemm_core.transpose Rows Columns a t).bind
          (fun t' => gemm_core.transpose Rows Columns t' r) ≠ some a) ∧
    (Columns = 1 → ∀ a t r : Buf, a.length = Rows * Columns → t.length = Rows * Columns →
      r.length = Rows * Columns →
        (gemm_core.transpose Rows Columns a t).bind
          (fun t' => gemm_core.transpose Rows Columns t' r) = some a) := by
  refine ⟨fun hC2 => transpose_twice_differs Rows Columns hne hR hC2, ?_⟩
  intro h1 a t r ha ht hr
  subst h1
  rw [transpose_columns_one Rows a t ha ht, Option.some_bind,
    transpose_columns_one Rows a r ha hr]

/-- C10 amended, at 3 x 2, where every read is inside the buffer and the result differs, and
at 3 x 1, where the kernel copies. -/
theorem transpose_twice_nonsquare_witness :
    (((3 : Nat) ≠ 2 ∧ 1 ≤ 3 ∧ 2 ≤ 2) ∧
      ∃ a : Buf, a.length = 3 * 2 ∧
        ∀ t r : Buf, t.length = 3 * 2 → r.length = 3 * 2 →
          (gemm_core.transpose 3 2 a t).bind (fun t' => gemm_core.transpose 3 2 t' r)
            ≠ some a) ∧
    (((3 : Nat) ≠ 1 ∧ 1 ≤ 3 ∧ 1 ≤ 1) ∧
      ∀ a t r : Buf, a.length = 3 * 1 → t.length = 3 * 1 → r.length = 3 * 1 →
        (gemm_core.transpose 3 1 a t).bind (fun t' => gemm_core.transpose 3 1 t' r)
          = some a) :=
  ⟨⟨by decide,
      (transpose_twice_nonsquare 3 2 (by decide) (by decide) (by decide)).1 (by decide)⟩,
    ⟨by decide, (transpose_twice_nonsquare 3 1 (by decide) (by decide) (by decide)).2 rfl⟩⟩

/-- C2 at a failing input: the `int8_t` product of `A = [[2, 3]]` and
`B = [[1, 2, 3, 4], [5, 6, 7, 8]]` into `C = [[0, 0, 0, 0]]`. The reference kernel leaves the
product `[[17, 22, 27, 32]]` in `C`. The packed-integer kernel does not: on the 2-byte buffer
`a` its first 4-byte load of `a` runs past the end, and when the 3 bytes behind `a` are
readable (here zeros) it returns `C` still all zeros. -/
theorem packed_product_from_zero :
    gemm_core.mult int8 1 4 2 [2, 3] [1, 2, 3, 4, 5, 6, 7, 8] [0, 0, 0, 0]
      = some [17, 22, 27, 32] ∧
    gemm_core_mve.mult 1 4 2 [2, 3] [1, 2, 3, 4, 5, 6, 7, 8] [0, 0, 0, 0] = none ∧
    gemm_core_mve.mult 1 4 2 [2, 3, 0, 0, 0] [1, 2, 3, 4, 5, 6, 7, 8] [0, 0, 0, 0]
      = some [0, 0, 0, 0] := by
  decide

/-- C4 at a failing input: `A = [[3]]`, `B = [[1, 2, 3, 4]]` and `C = [[10, 20, 30, 40]]`
of `int8_t`. The reference kernel returns `[[13, 26, 39, 52]]`. The packed-integer kernel
does not: on the 1-byte buffer `a` its 4-byte load of `a` runs past the end, and when the
3 bytes behind `a` are readable it returns `C` unchanged, whatever those bytes hold. -/
theorem packed_differs_from_reference :
    gemm_core.mult int8 1 4 1 [3] [1, 2, 3, 4] [10, 20, 30, 40] = some [13, 26, 39, 52] ∧
    gemm_core_mve.mult 1 4 1 [3] [1, 2, 3, 4] [10, 20, 30, 40] = none ∧
    gemm_core_mve.mult 1 4 1 [3, 0, 0, 0] [1, 2, 3, 4] [10, 20, 30, 40]
      = some [10, 20, 30, 40] ∧
    gemm_core_mve.mult 1 4 1 [3, 3, 3, 3] [1, 2, 3, 4] [10, 20, 30, 40]
      = some [10, 20, 30, 40] := by
  decide


/-- C11: trace on square matrices is the diagonal sum. For `N = Rows = Columns`, an element
type of at least one bit and `a` of `N * N` elements, `trace` returns the sum of the
diagonal elements `a[i * N + i]`, `i < N`, accumulated from zero and reduced into the
element type; the trace of the all-zero matrix is 0. -/
theorem trace_square (T : IntType) (N : Nat) (a : Buf) (hT : 0 < T.bits)
    (ha : a.length = N * N) :
    gemm_core.trace T N N a = some (T.wrap (∑ i in Finset.range N, get N a i i)) ∧
    (∀ i, i < N → a[i * N + i]? = some (get N a i i)) ∧
    gemm_core.trace T N N (List.replicate (N * N) 0) = some 0 := by
  have hidx : ∀ i, i < N → i * N + i < a.length := fun i hi => by
    rw [ha]; exact idx_lt hi hi
  refine ⟨trace_spec T N N a hT hidx, fun i hi => ?_, ?_⟩
  · have h := load_eq_get (hidx i hi)
    rwa [load] at h
  · rw [trace_spec T N N _ hT (fun i hi => by
      rw [List.length_replicate]; exact idx_lt hi hi)]
    have hz : ∀ i ∈ Finset.range N, get N (List.replicate (N * N) (0 : Int)) i i = 0 := by
      intro i hi
      have hlt : i * N + i < N * N := idx_lt (Finset.mem_range.1 hi) (Finset.mem_range.1 hi)
      exact get_eq_of_load (by rw [List.getElem?_replicate, if_pos hlt])
    rw [Finset.sum_eq_zero hz, wrap_zero T hT]

/-- C11 on a 2 x 2 `int8_t` matrix whose diagonal sum overflows 8 bits. -/
theorem trace_square_witness :
    gemm_core.trace int8 2 2 [100, 2, 3, 100] = some (-56) ∧
    (gemm_core.trace int8 2 2 [100, 2, 3, 100]
        = some (int8.wrap (∑ i in Finset.range 2, get 2 [100, 2, 3, 100] i i)) ∧
      (∀ i, i < 2 →
        ([100, 2, 3, 100] : Buf)[i * 2 + i]? = some (get 2 [100, 2, 3, 100] i i)) ∧
      gemm_core.trace int8 2 2 (List.replicate (2 * 2) 0) = some 0) :=
  ⟨by decide, trace_square int8 2 [100, 2, 3, 100] (by decide) (by decide)⟩

/-- C12: max over an all-negative matrix returns 0. For `Rows`, `Columns` at least 1, a
matrix `a` of `Rows * Columns` strictly negative elements and any valid placement of `a` and
`ret` in memory, `max` returns 0, which is not an element of the (non-empty) matrix and so
not its maximum. -/
theorem max_all_negative (L : Layout) (Rows Columns : Nat) (a : Buf) (hR : 1 ≤ Rows)
    (hC : 1 ≤ Columns) (ha : a.length = Rows * Columns) (hL : L.Valid a.length)
    (hneg : ∀ x ∈ a, x < 0) :
    gemm_core.max L Rows Columns a = some 0 ∧ (0 : Int) ∉ a ∧ a ≠ [] := by
  obtain ⟨M, hM, h0, _, hmem⟩ := max_spec L Rows Columns a ha hL
  refine ⟨?_, fun h => absurd (hneg 0 h) (lt_irrefl 0), ?_⟩
  · rcases hmem with h | h
    · rw [hM, h]
    · have := hneg M h; omega
  · intro h
    rw [h, List.length_nil] at ha
    have := Nat.mul_le_mul hR hC
    omega

/-- C12 on the matrix of the specification, `[[-1, -2], [-3, -4]]`, as `int8_t` at address
`0x20000000` with `ret` at `0x2007FFF0`. -/
theorem max_all_negative_witness :
    gemm_core.max ⟨32, 1, 0x20000000, 0x2007FFF0⟩ 2 2 [-1, -2, -3, -4] = some 0 ∧
      (0 : Int) ∉ ([-1, -2, -3, -4] : Buf) ∧ ([-1, -2, -3, -4] : Buf) ≠ [] :=
  max_all_negative ⟨32, 1, 0x20000000, 0x2007FFF0⟩ 2 2 [-1, -2, -3, -4] (by decide)
    (by decide) (by decide) (by decide) (by decide)

/-- C13 as stated fails: on `[[-1, -2], [-3, -4]]`, all strictly negative, `min` returns the
true minimum `-4`, not 0. -/
theorem min_all_negative_not_zero :
    (1 ≤ 2 ∧ (∀ x ∈ ([-1, -2, -3, -4] : Buf), x < 0) ∧
      (⟨32, 1, 0x20000000, 0x2007FFF0⟩ : Layout).Valid 4) ∧
    gemm_core.min ⟨32, 1, 0x20000000, 0x2007FFF0⟩ 2 2 [-1, -2, -3, -4] = some (-4) ∧
    gemm_core.min ⟨32, 1, 0x20000000, 0x2007FFF0⟩ 2 2 [-1, -2, -3, -4] ≠ some 0 := by
  decide

/-- C13, amended: min over an all-negative matrix returns the true minimum. For `Rows`,
`Columns` at least 1, a matrix `a` of `Rows * Columns` strictly negative elements and any
valid placement in memory, `min` returns an element of `a` that is below or equal to every
element of `a`; it is strictly negative, so it is not 0. -/
theorem min_all_negative (L : Layout) (Rows Columns : Nat) (a : Buf) (hR : 1 ≤ Rows)
    (hC : 1 ≤ Columns) (ha : a.length = Rows * Columns) (hL : L.Valid a.length)
    (hneg : ∀ x ∈ a, x < 0) :
    ∃ M, gemm_core.min L Rows Columns a = some M ∧ M ∈ a ∧ (∀ x ∈ a, M ≤ x) ∧
      M < 0 := by
  obtain ⟨M, hM, _, hlb, hmem⟩ := min_spec L Rows Columns a ha hL
  have hne : ∃ x, x ∈ a := by
    have hpos : 0 < a.length := by
      rw [ha]; exact Nat.mul_pos hR hC
    exact ⟨a[0], List.getElem_mem hpos⟩
  obtain ⟨x, hx⟩ := hne
  have hMa : M ∈ a := by
    rcases hmem with h | h
    · have h1 := hlb x hx
      have h2 := hneg x hx
      omega
    · exact h
  exact ⟨M, hM, hMa, hlb, hneg M hMa⟩

/-- C13 amended, on `[[-1, -2], [-3, -4]]`. -/
theorem min_all_negative_witness :
    ∃ M, gemm_core.min ⟨32, 1, 0x20000000, 0x2007FFF0⟩ 2 2 [-1, -2, -3, -4] = some M ∧
      M ∈ ([-1, -2, -3, -4] : Buf) ∧ (∀ x ∈ ([-1, -2, -3, -4] : Buf), M ≤ x) ∧ M < 0 :=
  min_all_negative ⟨32, 1, 0x20000000, 0x2007FFF0⟩ 2 2 [-1, -2, -3, -4] (by decide)
    (by decide) (by decide) (by decide) (by decide)

/-- C14: min and max are zero-seeded folds. For any dimensions, any integer matrix `a` of
`Rows * Columns` elements and any valid placement in memory, `max` returns the greatest value
among 0 and the elements of `a` and `min` returns the least value among 0 and the elements
of `a`. Hence `min ≤ 0 ≤ max`, the min of an all-positive matrix is 0, and the result is an
element of `a` bounding all of `a`, the true maximum (minimum), exactly when `a` has an
element that is not below (not above) 0. -/
theorem min_max_zero_seeded (L : Layout) (Rows Columns : Nat) (a : Buf)
    (ha : a.length = Rows * Columns) (hL : L.Valid a.length) :
    ∃ mx mn, gemm_core.max L Rows Columns a = some mx ∧
      gemm_core.min L Rows Columns a = some mn ∧
      (0 ≤ mx ∧ (∀ x ∈ a, x ≤ mx) ∧ (mx = 0 ∨ mx ∈ a)) ∧
      (mn ≤ 0 ∧ (∀ x ∈ a, mn ≤ x) ∧ (mn = 0 ∨ mn ∈ a)) ∧
      ((∀ x ∈ a, 0 < x) → mn = 0) ∧
      (mx ∈ a ↔ ∃ x ∈ a, 0 ≤ x) ∧ (mn ∈ a ↔ ∃ x ∈ a, x ≤ 0) := by
  obtain ⟨mx, hmx, hx0, hxub, hxmem⟩ := max_spec L Rows Columns a ha hL
  obtain ⟨mn, hmn, hn0, hnlb, hnmem⟩ := min_spec L Rows Columns a ha hL
  refine ⟨mx, mn, hmx, hmn, ⟨hx0, hxub, hxmem⟩, ⟨hn0, hnlb, hnmem⟩, ?_, ?_, ?_⟩
  · intro hpos
    rcases hnmem with h | h
    · exact h
    · have := hpos mn h; omega
  · constructor
    · intro h; exact ⟨mx, h, hx0⟩
    · rintro ⟨x, hx, hx'⟩
      rcases hxmem with h | h
      · have h1 := hxub x hx
        have : x = mx := by omega
        rw [← this]; exact hx
      · exact h
  · constructor
    · intro h; exact ⟨mn, h, hn0⟩
    · rintro ⟨x, hx, hx'⟩
      rcases hnmem with h | h
      · have h1 := hnlb x hx
        have : x = mn := by omega
        rw [← this]; exact hx
      · exact h

/-- C14 on a 2 x 3 matrix of `int32_t` with elements on both sides of 0. -/
theorem min_max_zero_seeded_witness :
    (gemm_core.max ⟨32, 4, 0x20000000, 0x2007FFF0⟩ 2 3 [3, -7, 0, 12, -1, 5] = some 12 ∧
      gemm_core.min ⟨32, 4, 0x20000000, 0x2007FFF0⟩ 2 3 [3, -7, 0, 12, -1, 5] = some (-7) ∧
      gemm_core.min ⟨32, 4, 0x20000000, 0x2007FFF0⟩ 2 3 [3, 7, 1, 12, 1, 5] = some 0) ∧
    ∃ mx mn,
      gemm_core.max ⟨32, 4, 0x20000000, 0x2007FFF0⟩ 2 3 [3, -7, 0, 12, -1, 5] = some mx ∧
      gemm_core.min ⟨32, 4, 0x20000000, 0x2007FFF0⟩ 2 3 [3, -7, 0, 12, -1, 5] = some mn ∧
      (0 ≤ mx ∧ (∀ x ∈ ([3, -7, 0, 12, -1, 5] : Buf), x ≤ mx) ∧
        (mx = 0 ∨ mx ∈ ([3, -7, 0, 12, -1, 5] : Buf))) ∧
      (mn ≤ 0 ∧ (∀ x ∈ ([3, -7, 0, 12, -1, 5] : Buf), mn ≤ x) ∧
        (mn = 0 ∨ mn ∈ ([3, -7, 0, 12, -1, 5] : Buf))) ∧
      ((∀ x ∈ ([3, -7, 0, 12, -1, 5] : Buf), 0 < x) → mn = 0) ∧
      (mx ∈ ([3, -7, 0, 12, -1, 5] : Buf) ↔
        ∃ x ∈ ([3, -7, 0, 12, -1, 5] : Buf), 0 ≤ x) ∧
      (mn ∈ ([3, -7, 0, 12, -1, 5] : Buf) ↔ ∃ x ∈ ([3, -7, 0, 12, -1, 5] : Buf), x ≤ 0) :=
  ⟨by decide, min_max_zero_seeded ⟨32, 4, 0x20000000, 0x2007FFF0⟩ 2 3 [3, -7, 0, 12, -1, 5]
    (by decide) (by decide)⟩

/-- C15: the 0/1 flag precondition of `branchless_select` is necessary. For every `int` flag
other than 0 and 1 (addresses of at least 32 bits) and every operand address `addr_a` there
is an operand address `addr_b`, the bitwise complement of `addr_a`, for which the computed
address is neither `addr_a` nor `addr_b`. -/
theorem flag_precondition_necessary (W : Nat) (compare : Int) (hW : 32 ≤ W)
    (hlo : -2 ^ 31 ≤ compare) (hhi : compare < 2 ^ 31) (h0 : compare ≠ 0) (h1 : compare ≠ 1) :
    ∀ addr_a, addr_a < 2 ^ W → ∃ addr_b, addr_b < 2 ^ W ∧
      branchless_select_ptr W compare addr_a addr_b ≠ addr_a ∧
      branchless_select_ptr W compare addr_a addr_b ≠ addr_b := by
  intro addr_a ha
  obtain ⟨hlt, hne0, hne1⟩ := mask_of_other W compare hW hlo hhi h0 h1
  have hones : 2 ^ W - 1 < 2 ^ W := by
    have : 1 ≤ 2 ^ W := Nat.one_le_two_pow
    omega
  have hptr : branchless_select_ptr W compare addr_a (addr_a ^^^ (2 ^ W - 1))
      = ((compare - 1) % 2 ^ W).toNat ^^^ addr_a := by
    rw [branchless_select_ptr, Nat.xor_comm addr_a, Nat.xor_assoc, Nat.xor_self,
      Nat.xor_zero, Nat.and_pow_two_sub_one_of_lt_two_pow hlt]
  refine ⟨addr_a ^^^ (2 ^ W - 1), Nat.xor_lt_two_pow ha hones, ?_, ?_⟩
  · rw [hptr]
    intro h
    apply hne0
    have h2 := congrArg (fun x => x ^^^ addr_a) h
    simpa [Nat.xor_assoc] using h2
  · rw [hptr]
    intro h
    apply hne1
    have h2 := congrArg (fun x => x ^^^ addr_a) h
    simp only [Nat.xor_assoc, Nat.xor_self, Nat.xor_zero] at h2
    rw [h2, Nat.xor_comm addr_a, Nat.xor_assoc, Nat.xor_self, Nat.xor_zero]

/-- C15 for the flag 2 on a 32-bit machine with `addr_a = 0x20000000`: the complement is
`0xDFFFFFFF` and the computed address is `0x20000001`. -/
theorem flag_precondition_necessary_witness :
    branchless_select_ptr 32 2 0x20000000 0xDFFFFFFF = 0x20000001 ∧
    ∃ addr_b, addr_b < 2 ^ 32 ∧
      branchless_select_ptr 32 2 0x20000000 addr_b ≠ 0x20000000 ∧
      branchless_select_ptr 32 2 0x20000000 addr_b ≠ addr_b :=
  ⟨by decide, flag_precondition_necessary 32 2 (by decide) (by decide) (by decide)
    (by decide) (by decide) 0x20000000 (by decide)⟩

/-- C16 at a failing input, and in general. For `Rows = 2`, `Other = 2`, `Columns = 4` and
`a` of exactly 4 bytes, the 4-byte load of `a` at offset `0 * 2 + 0` is inside the buffer
but the loads at offsets `0 * 2 + 1`, `1 * 2 + 0` and `1 * 2 + 1` touch bytes past its end,
so the kernel has no defined result. In general, for `Rows`, `Other` at least 1 and buffers
of exactly the declared sizes, the load of `a` at offset `(Rows - 1) * Other + (Other - 1)`
is outside `a`, while every load of `b` and every load and store of `c` is inside. -/
theorem packed_load_of_a_overruns :
    (load32 [1, 2, 3, 4] (0 * 2 + 0) = some 0x04030201 ∧
      load32 [1, 2, 3, 4] (0 * 2 + 1) = none ∧
      load32 [1, 2, 3, 4] (1 * 2 + 0) = none ∧
      load32 [1, 2, 3, 4] (1 * 2 + 1) = none ∧
      gemm_core_mve.mult 2 4 2 [1, 2, 3, 4] [1, 1, 1, 1, 1, 1, 1, 1] [0, 0, 0, 0, 0, 0, 0, 0]
        = none) ∧
    ∀ (Rows Columns Other : Nat) (a b c : Buf), 1 ≤ Rows → 1 ≤ Other →
      vectorization ≤ Columns → Columns % vectorization = 0 →
      a.length = Rows * Other → b.length = Other * Columns → c.length = Rows * Columns →
      load32 a ((Rows - 1) * Other + (Other - 1)) = none ∧
      gemm_core_mve.mult Rows Columns Other a b c = none ∧
      (∀ k j, k < Other → j < Columns → j % vectorization = 0 →
        (load32 b (k * Columns + j)).isSome) ∧
      (∀ i j w, i < Rows → j < Columns → j % vectorization = 0 →
        (load32 c (i * Columns + j)).isSome ∧ (store32 c (i * Columns + j) w).isSome) := by
  refine ⟨by decide, ?_⟩
  intro Rows Columns Other a b c hR hK hC4 hC ha hb hc
  have hvec : vectorization = 4 := rfl
  rw [hvec] at hC4 hC
  refine ⟨?_, mve_mult_exact_none Rows Columns Other a b c hR hK hC4 hC ha, ?_, ?_⟩
  · apply load32_none
    have h : (Rows - 1 + 1) * Other = Rows * Other := by rw [Nat.sub_add_cancel hR]
    rw [Nat.add_mul, Nat.one_mul] at h
    rw [ha]
    omega
  · intro k j hk hj hj4
    rw [hvec] at hj4
    have := idx_lt (R := Other) (C := Columns) (i := k) (j := j + 3) hk (by omega)
    obtain ⟨_, _, _, _, _, _, _, _, hl⟩ := load32_some b (k * Columns + j) (by omega)
    rw [hl]; rfl
  · intro i j w hi hj hj4
    rw [hvec] at hj4
    have := idx_lt (R := Rows) (C := Columns) (i := i) (j := j + 3) hi (by omega)
    obtain ⟨_, _, _, _, _, _, _, _, hl⟩ := load32_some c (i * Columns + j) (by omega)
    refine ⟨by rw [hl]; rfl, ?_⟩
    simp [store32, store, bind, show i * Columns + j < c.length by omega,
      show i * Columns + j + 1 < c.length by omega,
      show i * Columns + j + 2 < c.length by omega,
      show i * Columns + j + 3 < c.length by omega]

/-- C17 as stated fails for buffers of the declared sizes: with `Rows = 2`, `Columns = 4`,
`Other = 3` and `a` of exactly 6 bytes, a 4-byte load of `a` runs past its end, so the call
has no defined result and `C` is not guaranteed to be the buffer before the call. -/
theorem packed_unchanged_exact_size :
    ((4 : Nat) % vectorization = 0 ∧ ([1, 2, 3, 4, 5, 6] : Buf).length = 2 * 3 ∧
      ([1, 0, 0, 0, 0, 1, 0, 0, 0, 0, 1, 0] : Buf).length = 3 * 4 ∧
      ([1, 2, 3, 4, 5, 6, 7, 8] : Buf).length = 2 * 4) ∧
    gemm_core_mve.mult 2 4 3 [1, 2, 3, 4, 5, 6] [1, 0, 0, 0, 0, 1, 0, 0, 0, 0, 1, 0]
      [1, 2, 3, 4, 5, 6, 7, 8] ≠ some [1, 2, 3, 4, 5, 6, 7, 8] := by
  decide

/-- C17, amended: whenever every 4-byte load of `a` is inside its buffer (`a` is followed by
3 readable bytes), for every `Rows`, `Other`, every `Columns` multiple of 4 and every `b` and
`c` of the declared sizes holding `int8_t` values, the packed operand `var_a0` is 0, both
`__SMLAD` steps add nothing, and the call returns with `C` equal to the buffer before the
call. -/
theorem packed_leaves_c_unchanged (Rows Columns Other : Nat) (a b c : Buf)
    (hC : Columns % vectorization = 0)
    (ha : ∀ i, i < Rows → ∀ k, k < Other → i * Other + k + 3 < a.length)
    (hb : b.length = Other * Columns) (hc : c.length = Rows * Columns)
    (hin : ∀ x ∈ c, int8.InRange x) :
    (∀ var_a, __PKHTB var_a ((var_a <<< 16) % 2 ^ 32) &&& 0x0F0F = 0) ∧
    (∀ y acc, acc < 2 ^ 32 → __SMLAD 0 y acc = acc) ∧
    gemm_core_mve.mult Rows Columns Other a b c = some c :=
  ⟨var_a0_eq_zero, smlad_zero,
    mve_mult_unchanged Rows Columns Other a b c hC (fun i k hi hk => ha i hi k hk) (by omega)
      hc hin⟩

/-- C17 amended, on the 2 x 3 by 3 x 4 product with 3 bytes behind the 6 bytes of `a`. -/
theorem packed_leaves_c_unchanged_witness :
    gemm_core_mve.mult 2 4 3 [1, 2, 3, 4, 5, 6, 0, 0, 0] [1, 0, 0, 0, 0, 1, 0, 0, 0, 0, 1, 0]
      [1, 2, 3, 4, 5, 6, 7, -8] = some [1, 2, 3, 4, 5, 6, 7, -8] :=
  (packed_leaves_c_unchanged 2 4 3 [1, 2, 3, 4, 5, 6, 0, 0, 0]
    [1, 0, 0, 0, 0, 1, 0, 0, 0, 0, 1, 0] [1, 2, 3, 4, 5, 6, 7, -8] (by decide) (by decide)
    (by decide) (by decide) (by decide)).2.2

/-- C18: blocked multiply indexes only inside its buffers under the divisibility
precondition. For `Rows`, `Columns`, `Other` positive multiples of 32 and buffers of the
declared sizes, the blocked kernel run with its index triples recorded returns a buffer and
a list of triples: the buffer is the one the kernel `mult` returns, and the list holds every
triple `(i, j, k)` of `[0, Rows) x [0, Columns) x [0, Other)` exactly once and no other
triple. At each recorded triple `i * Other + k < Rows * Other`,
`k * Columns + j < Other * Columns` and `i * Columns + j < Rows * Columns`, so the reads
of `a`, `b` and `c` there are defined. The buffer the kernel returns is the one obtained by
executing `c[i][j] += a[i][k] * b[k][j]` once at each recorded triple, in the recorded
order. Forgetting the triples, the recording kernel is the kernel on every input. -/
theorem blocked_indexes_inside (T : IntType) (Rows Columns Other : Nat) (a b c : Buf)
    (hR0 : 0 < Rows) (hC0 : 0 < Columns) (hK0 : 0 < Other) (hR : Rows % blocksize = 0)
    (hC : Columns % blocksize = 0) (hK : Other % blocksize = 0)
    (ha : a.length = Rows * Other) (hb : b.length = Other * Columns)
    (hc : c.length = Rows * Columns) :
    ∃ c' tr, gemm_core_blocked.mult_traced T Rows Columns Other a b c = some (c', tr) ∧
      gemm_core_blocked.mult T Rows Columns Other a b c = some c' ∧
      replay T Columns Other a b tr c = some c' ∧
      gemm_core_blocked.mult_visits Rows Columns Other = some tr ∧
      tr.Nodup ∧ tr ≠ [] ∧
      (∀ i j k, (i, j, k) ∈ tr ↔ i < Rows ∧ j < Columns ∧ k < Other) ∧
      (∀ i j k, (i, j, k) ∈ tr →
        (i * Other + k < Rows * Other ∧ k * Columns + j < Other * Columns ∧
          i * Columns + j < Rows * Columns) ∧
        (load a (i * Other + k)).isSome ∧ (load b (k * Columns + j)).isSome ∧
          (load c (i * Columns + j)).isSome) ∧
      ∀ a1 b1 c1 : Buf,
        (gemm_core_blocked.mult_traced T Rows Columns Other a1 b1 c1).map Prod.fst
          = gemm_core_blocked.mult T Rows Columns Other a1 b1 c1 := by
  obtain ⟨c', hc', _⟩ := mult_blocked_spec T Rows Columns Other
    (Rows / blocksize) (Columns / blocksize) (Other / blocksize) a b c
    (Nat.eq_mul_of_div_eq_right (Nat.dvd_of_mod_eq_zero hR) rfl)
    (Nat.eq_mul_of_div_eq_right (Nat.dvd_of_mod_eq_zero hC) rfl)
    (Nat.eq_mul_of_div_eq_right (Nat.dvd_of_mod_eq_zero hK) rfl)
    (by omega) (by omega) hc
  have hfst := mult_traced_fst T Rows Columns Other a b c
  rw [hc'] at hfst
  obtain ⟨⟨c2, tr⟩, htraced, hc2⟩ := Option.map_eq_some'.1 hfst
  have hc2' : c2 = c' := hc2
  subst hc2'
  have hvis := mult_traced_snd T Rows Columns Other a b c _ htraced
  obtain ⟨tr', htr', hnd, hmem⟩ := mult_visits_spec Rows Columns Other
    (Rows / blocksize) (Columns / blocksize) (Other / blocksize)
    (Nat.eq_mul_of_div_eq_right (Nat.dvd_of_mod_eq_zero hR) rfl)
    (Nat.eq_mul_of_div_eq_right (Nat.dvd_of_mod_eq_zero hC) rfl)
    (Nat.eq_mul_of_div_eq_right (Nat.dvd_of_mod_eq_zero hK) rfl)
  have htr : tr' = tr := by
    rw [htr'] at hvis
    exact Option.some.inj hvis
  subst htr
  refine ⟨c2, tr', htraced, hc', mult_traced_replay T Rows Columns Other a b c _ htraced,
    htr', hnd, ?_, fun i j k => hmem (i, j, k), ?_,
    mult_traced_fst T Rows Columns Other⟩
  · intro h
    have h0 : ((0, 0, 0) : Nat × Nat × Nat) ∈ tr' := (hmem (0, 0, 0)).2 ⟨hR0, hC0, hK0⟩
    rw [h] at h0
    exact List.not_mem_nil _ h0
  · intro i j k h
    obtain ⟨hi, hj, hk⟩ := (hmem (i, j, k)).1 h
    have h1 : i * Other + k < Rows * Other := idx_lt hi hk
    have h2 : k * Columns + j < Other * Columns := idx_lt hk hj
    have h3 : i * Columns + j < Rows * Columns := idx_lt hi hj
    refine ⟨⟨h1, h2, h3⟩, ?_, ?_, ?_⟩
    · rw [load_eq_get (by rw [ha]; exact h1)]; rfl
    · rw [load_eq_get (by rw [hb]; exact h2)]; rfl
    · rw [load_eq_get (by rw [hc]; exact h3)]; rfl

/-- C18 at `Rows = 32`, `Columns = 64`, `Other = 32` on `int8_t` buffers. -/
theorem blocked_indexes_inside_witness :
    ∃ c' tr, gemm_core_blocked.mult_traced int8 32 64 32 (List.replicate 1024 3)
        (List.replicate 2048 (-5)) (List.replicate 2048 7) = some (c', tr) ∧
      gemm_core_blocked.mult int8 32 64 32 (List.replicate 1024 3)
        (List.replicate 2048 (-5)) (List.replicate 2048 7) = some c' ∧
      replay int8 64 32 (List.replicate 1024 3) (List.replicate 2048 (-5)) tr
        (List.replicate 2048 7) = some c' ∧
      gemm_core_blocked.mult_visits 32 64 32 = some tr ∧
      tr.Nodup ∧ tr ≠ [] ∧
      (∀ i j k, (i, j, k) ∈ tr ↔ i < 32 ∧ j < 64 ∧ k < 32) ∧
      (∀ i j k, (i, j, k) ∈ tr →
        (i * 32 + k < 32 * 32 ∧ k * 64 + j < 32 * 64 ∧ i * 64 + j < 32 * 64) ∧
        (load (List.replicate 1024 3) (i * 32 + k)).isSome ∧
          (load (List.replicate 2048 (-5)) (k * 64 + j)).isSome ∧
          (load (List.replicate 2048 7) (i * 64 + j)).isSome) ∧
      ∀ a1 b1 c1 : Buf,
        (gemm_core_blocked.mult_traced int8 32 64 32 a1 b1 c1).map Prod.fst
          = gemm_core_blocked.mult int8 32 64 32 a1 b1 c1 :=
  blocked_indexes_inside int8 32 64 32 (List.replicate 1024 3) (List.replicate 2048 (-5))
    (List.replicate 2048 7) (by decide) (by decide) (by decide) (by decide) (by decide)
    (by decide) (List.length_replicate _ _) (List.length_replicate _ _)
    (List.length_replicate _ _)

/-- C19: transpose reads inside the input buffer exactly when `Columns ≤ Rows`. For `Rows`,
`Columns` at least 1 and `a`, `c` of `Rows * Columns` elements, every read index
`j * Columns + i` (`i < Rows`, `j < Columns`) is below `Rows * Columns`, every read
`a[j * Columns + i]` being defined, if and only if `Columns ≤ Rows`; every write index
`i * Columns + j` is below `Rows * Columns`, every write being defined; so the kernel
returns if and only if `Columns ≤ Rows`. -/
theorem transpose_reads_inside_iff (Rows Columns : Nat) (a c : Buf) (hR : 1 ≤ Rows)
    (hC : 1 ≤ Columns) (ha : a.length = Rows * Columns) (hc : c.length = Rows * Columns) :
    ((∀ i j, i < Rows → j < Columns → j * Columns + i < Rows * Columns) ↔
      Columns ≤ Rows) ∧
    ((∀ i j, i < Rows → j < Columns → (load a (j * Columns + i)).isSome) ↔
      Columns ≤ Rows) ∧
    (∀ i j, i < Rows → j < Columns → i * Columns + j < Rows * Columns) ∧
    (∀ i j v, i < Rows → j < Columns → (store c (i * Columns + j) v).isSome) ∧
    ((gemm_core.transpose Rows Columns a c).isSome ↔ Columns ≤ Rows) := by
  have hin : Columns ≤ Rows → ∀ i j, i < Rows → j < Columns →
      j * Columns + i < Rows * Columns := by
    intro hle i j hi hj
    have h1 : j * Columns ≤ j * Rows := Nat.mul_le_mul_left j hle
    have h2 := idx_lt (R := Columns) (C := Rows) (i := j) (j := i) hj hi
    rw [Nat.mul_comm Columns Rows] at h2
    omega
  have hout : Rows < Columns →
      Rows * Columns ≤ (Columns - 1) * Columns + (Rows - 1) := by
    intro hlt
    have : Rows * Columns ≤ (Columns - 1) * Columns := Nat.mul_le_mul_right Columns (by omega)
    omega
  have hloadnone : Rows < Columns → load a ((Columns - 1) * Columns + (Rows - 1)) = none := by
    intro hlt
    rw [load, List.getElem?_eq_none (by rw [ha]; exact hout hlt)]
  refine ⟨⟨fun h => ?_, hin⟩, ⟨fun h => ?_, fun hle i j hi hj => ?_⟩,
    fun i j hi hj => idx_lt hi hj, fun i j v hi hj => ?_, ⟨fun h => ?_, fun hle => ?_⟩⟩
  · by_contra hlt
    have h1 := h (Rows - 1) (Columns - 1) (by omega) (by omega)
    have h2 := hout (by omega)
    omega
  · by_contra hlt
    have h1 := h (Rows - 1) (Columns - 1) (by omega) (by omega)
    rw [hloadnone (by omega)] at h1
    exact Bool.noConfusion h1
  · rw [load_eq_get (by rw [ha]; exact hin hle i j hi hj)]; rfl
  · rw [store, if_pos (by rw [hc]; exact idx_lt hi hj)]; rfl
  · by_contra hlt
    have hfail : gemm_core.transpose Rows Columns a c = none := by
      unfold gemm_core.transpose
      apply forRange_none 0 Rows _ c (Rows - 1) (by omega)
      intro s1
      apply forRange_none 0 Columns _ s1 (Columns - 1) (by omega)
      intro s2
      have hnone := hloadnone (by omega)
      simp only [bind, Nat.zero_add, hnone, Option.none_bind]
    rw [hfail] at h
    exact Bool.noConfusion h
  · obtain ⟨c', hc', _⟩ := transpose_spec Rows Columns a c
      (fun i j hi hj => by rw [ha]; exact hin hle i j hi hj) hc
    rw [hc']; rfl

/-- C19 on 3 x 2 buffers, where `Columns ≤ Rows` and the kernel returns. -/
theorem transpose_reads_inside_iff_witness :
    gemm_core.transpose 3 2 [1, 2, 3, 4, 5, 6] [0, 0, 0, 0, 0, 0] = some [1, 3, 2, 4, 3, 5] ∧
    gemm_core.transpose 2 3 [1, 2, 3, 4, 5, 6] [0, 0, 0, 0, 0, 0] = none ∧
    (((∀ i j, i < 3 → j < 2 → j * 2 + i < 3 * 2) ↔ 2 ≤ 3) ∧
      ((∀ i j, i < 3 → j < 2 → (load [1, 2, 3, 4, 5, 6] (j * 2 + i)).isSome) ↔ 2 ≤ 3) ∧
      (∀ i j, i < 3 → j < 2 → i * 2 + j < 3 * 2) ∧
      (∀ i j v, i < 3 → j < 2 → (store [0, 0, 0, 0, 0, 0] (i * 2 + j) v).isSome) ∧
      ((gemm_core.transpose 3 2 [1, 2, 3, 4, 5, 6] [0, 0, 0, 0, 0, 0]).isSome ↔ 2 ≤ 3)) :=
  ⟨by decide, by decide, transpose_reads_inside_iff 3 2 [1, 2, 3, 4, 5, 6] [0, 0, 0, 0, 0, 0]
    (by decide) (by decide) (by decide) (by decide)⟩

end xitren.math
